import Mathlib

/-!
Verification development for the `web-camera-kit` capture-to-analysis pipeline.

The TypeScript sources are shallowly embedded as executable Lean definitions:

* `src/utils/analysisParser.ts` — `parseAnalysisResult` (a staged text
  normalisation followed by a strict JSON decode and a truthiness check of the
  three top-level keys) and `reprocessAnalysis`.
* `src/hooks/useMediaCapture.ts` — the capture-session controller; its state
  (React `capturedMedia` plus the IndexedDB mirror) is modelled as an explicit
  state record, and the asynchronous outcomes (inference result, persistence
  success) become explicit parameters of the transition functions.
* `src/components/PushupAnalysisOverlay.tsx` — the playback synchroniser:
  the time-update handler and the truthiness-based rendering decisions.

JavaScript strings are modelled as `List Char` at the parser level; JSON string
contents are stored as code-point lists (`List Nat`) so that `\uXXXX` escapes,
including lone surrogates, stay representable.  JSON numbers are stored exactly
as a decimal mantissa/exponent pair; IEEE-754 rounding is not modelled (none of
the verified properties depend on float rounding).
-/

namespace WebCameraKit

/-! ## JSON values (the result of `JSON.parse`) -/

/-- A JSON value as produced by JavaScript `JSON.parse`.  String contents are
UTF-16-ish code points (`List Nat`); numbers are an exact decimal
mantissa × 10^exponent pair; object fields keep JS insertion semantics
(duplicate keys collapse, first position, last value). -/
inductive JsonVal where
  | jnull : JsonVal
  | jbool : Bool → JsonVal
  | jnum : Int → Int → JsonVal
  | jstr : List Nat → JsonVal
  | jarr : List JsonVal → JsonVal
  | jobj : List (List Nat × JsonVal) → JsonVal

/-- Code points of an ASCII Lean string, used for JSON object keys. -/
def strUnits (s : String) : List Nat := s.data.map Char.toNat

/-- JSON whitespace accepted by `JSON.parse` between tokens. -/
def isJsonWs (c : Char) : Bool := c = ' ' || c = '\t' || c = '\n' || c = '\r'

/-- Skip JSON inter-token whitespace. -/
def skipWs (s : List Char) : List Char := s.dropWhile isJsonWs

/-- Value of a hex digit, if the character is one. -/
def hexVal (c : Char) : Option Nat :=
  if '0' ≤ c ∧ c ≤ '9' then some (c.toNat - 48)
  else if 'a' ≤ c ∧ c ≤ 'f' then some (c.toNat - 87)
  else if 'A' ≤ c ∧ c ≤ 'F' then some (c.toNat - 55)
  else none

/-- Decimal digit test. -/
def isDigit (c : Char) : Bool := '0' ≤ c && c ≤ '9'

/-- Code point of a single-character JSON escape (`\"`, `\\`, `\/`, `\b`,
`\f`, `\n`, `\r`, `\t`). -/
def escUnit (e : Char) : Option Nat :=
  if e = '"' then some 34
  else if e = '\\' then some 92
  else if e = '/' then some 47
  else if e = 'b' then some 8
  else if e = 'f' then some 12
  else if e = 'n' then some 10
  else if e = 'r' then some 13
  else if e = 't' then some 9
  else none

/-- Parse the body of a JSON string (after the opening quote), returning the
decoded code points and the input following the closing quote.  Raw control
characters below 0x20 are rejected, as `JSON.parse` does. -/
def pString : List Char → Option (List Nat × List Char)
  | [] => none
  | '"' :: r => some ([], r)
  | '\\' :: e :: r2 =>
    if e = 'u' then
      match r2 with
      | a :: b :: c :: d :: r3 =>
        match hexVal a, hexVal b, hexVal c, hexVal d with
        | some x, some y, some z, some w =>
          match pString r3 with
          | some (us, rest) => some ((((x * 16 + y) * 16 + z) * 16 + w) :: us, rest)
          | none => none
        | _, _, _, _ => none
      | _ => none
    else
      match escUnit e with
      | some u =>
        match pString r2 with
        | some (us, rest) => some (u :: us, rest)
        | none => none
      | none => none
  | c :: r =>
    if c.toNat < 32 then none
    else
      match pString r with
      | some (us, rest) => some (c.toNat :: us, rest)
      | none => none

/-- Numeric value of a list of decimal digit characters. -/
def digitsToNat (ds : List Char) : Nat := ds.foldl (fun a c => a * 10 + (c.toNat - 48)) 0

/-- Integer part of a JSON number: `0`, or a nonzero digit followed by digits
(leading zeros are rejected, as in the JSON grammar). -/
def pIntPart : List Char → Option (List Char × List Char)
  | '0' :: r => some (['0'], r)
  | s =>
    let ds := s.takeWhile isDigit
    if ds.isEmpty then none else some (ds, s.dropWhile isDigit)

/-- Optional fraction part of a JSON number (a dot must be followed by at
least one digit). -/
def pFracPart : List Char → Option (List Char × List Char)
  | '.' :: r =>
    let ds := r.takeWhile isDigit
    if ds.isEmpty then none else some (ds, r.dropWhile isDigit)
  | s => some ([], s)

/-- Optional exponent part of a JSON number. -/
def pExpPart : List Char → Option (Int × List Char)
  | [] => some (0, [])
  | c :: r =>
    if c = 'e' ∨ c = 'E' then
      let signed : Bool × List Char :=
        match r with
        | '+' :: r2 => (false, r2)
        | '-' :: r2 => (true, r2)
        | _ => (false, r)
      let ds := signed.2.takeWhile isDigit
      if ds.isEmpty then none
      else
        some ((if signed.1 then -(digitsToNat ds : Int) else (digitsToNat ds : Int)),
          signed.2.dropWhile isDigit)
    else some (0, c :: r)

/-- Parse a JSON number per the JSON grammar, as exact decimal
mantissa × 10^exponent. -/
def pNumber (s : List Char) : Option (JsonVal × List Char) := do
  let signAndRest : Bool × List Char :=
    match s with
    | '-' :: r => (true, r)
    | _ => (false, s)
  let (ip, r1) ← pIntPart signAndRest.2
  let (fp, r2) ← pFracPart r1
  let (ex, r3) ← pExpPart r2
  let mant : Int := (digitsToNat (ip ++ fp) : Int)
  let mant : Int := if signAndRest.1 then -mant else mant
  some (.jnum mant (ex - fp.length), r3)

/-- Insert a key/value pair with JS object-literal semantics: a duplicate key
keeps its first position but takes the last value. -/
def objInsert (k : List Nat) (v : JsonVal) :
    List (List Nat × JsonVal) → List (List Nat × JsonVal)
  | [] => [(k, v)]
  | (k2, v2) :: rest => if k2 = k then (k2, v) :: rest else (k2, v2) :: objInsert k v rest

mutual

/-- Fueled recursive-descent JSON value parser (the fuel only bounds nesting;
`jparse` supplies enough for its input). -/
def pValue : Nat → List Char → Option (JsonVal × List Char)
  | 0, _ => none
  | fu + 1, s =>
    match skipWs s with
    | 'n' :: 'u' :: 'l' :: 'l' :: r => some (.jnull, r)
    | 't' :: 'r' :: 'u' :: 'e' :: r => some (.jbool true, r)
    | 'f' :: 'a' :: 'l' :: 's' :: 'e' :: r => some (.jbool false, r)
    | '"' :: r =>
      match pString r with
      | some (us, rest) => some (.jstr us, rest)
      | none => none
    | '[' :: r =>
      match skipWs r with
      | ']' :: r2 => some (.jarr [], r2)
      | _ => pArrayItems fu r []
    | '{' :: r =>
      match skipWs r with
      | '}' :: r2 => some (.jobj [], r2)
      | _ => pObjItems fu r []
    | s2 => pNumber s2

/-- Parse `value (',' value)* ']'` inside an array literal. -/
def pArrayItems : Nat → List Char → List JsonVal → Option (JsonVal × List Char)
  | 0, _, _ => none
  | fu + 1, s, acc =>
    match pValue fu s with
    | none => none
    | some (v, r) =>
      match skipWs r with
      | ',' :: r2 => pArrayItems fu r2 (v :: acc)
      | ']' :: r2 => some (.jarr (v :: acc).reverse, r2)
      | _ => none

/-- Parse `string ':' value (',' string ':' value)* '}'` inside an object
literal. -/
def pObjItems : Nat → List Char → List (List Nat × JsonVal) → Option (JsonVal × List Char)
  | 0, _, _ => none
  | fu + 1, s, acc =>
    match skipWs s with
    | '"' :: r =>
      match pString r with
      | none => none
      | some (k, r1) =>
        match skipWs r1 with
        | ':' :: r2 =>
          match pValue fu r2 with
          | none => none
          | some (v, r3) =>
            match skipWs r3 with
            | ',' :: r4 => pObjItems fu r4 (objInsert k v acc)
            | '}' :: r4 => some (.jobj (objInsert k v acc), r4)
            | _ => none
        | _ => none
    | _ => none

end

/-- The embedding of `JSON.parse`: decode one JSON value, allowing only
trailing whitespace. -/
def jparse (s : List Char) : Option JsonVal :=
  match pValue (2 * s.length + 2) s with
  | some (v, rest) => if (skipWs rest).isEmpty then some v else none
  | none => none

/-- JS property lookup `v.key` on a parsed JSON value: a field of an object,
`undefined` (`none`) otherwise. -/
def getField (v : JsonVal) (k : List Nat) : Option JsonVal :=
  match v with
  | .jobj fs => (fs.find? (fun p => decide (p.1 = k))).map (fun p => p.2)
  | _ => none

/-- JS truthiness of a possibly-undefined parsed JSON value: `undefined`,
`null`, `false`, `0` and `""` are falsy; objects and arrays are truthy. -/
def jtruthy : Option JsonVal → Bool
  | none => false
  | some .jnull => false
  | some (.jbool b) => b
  | some (.jnum m _) => decide (m ≠ 0)
  | some (.jstr us) => decide (us ≠ [])
  | some (.jarr _) => true
  | some (.jobj _) => true

/-! ## `analysisParser.ts`: the text-normalisation pipeline -/

/-- Whitespace as treated by JS `String.prototype.trim` and regex `\s`. -/
def isJsWs (c : Char) : Bool :=
  c = ' ' || c = '\t' || c = '\n' || c = '\r' || c.toNat = 11 || c.toNat = 12 ||
  c.toNat = 0xa0 || c.toNat = 0x1680 || (0x2000 ≤ c.toNat && c.toNat ≤ 0x200a) ||
  c.toNat = 0x2028 || c.toNat = 0x2029 || c.toNat = 0x202f || c.toNat = 0x205f ||
  c.toNat = 0x3000 || c.toNat = 0xfeff

/-- JS `result.trim()`. -/
def trimJs (s : List Char) : List Char :=
  ((s.dropWhile isJsWs).reverse.dropWhile isJsWs).reverse

/-- The matched text of the first regex alternative with its optional
trailing newline. -/
def patFenceJsonNl : List Char := ['`', '`', '`', 'j', 's', 'o', 'n', '\n']

/-- The first regex alternative without the optional newline. -/
def patFenceJson : List Char := ['`', '`', '`', 'j', 's', 'o', 'n']

/-- The second regex alternative with its optional leading newline. -/
def patNlFence : List Char := ['\n', '`', '`', '`']

/-- A bare triple backtick fence. -/
def patFence : List Char := ['`', '`', '`']

/-- A fence followed by a newline, `^```\n` (and, reversed, the suffix
`\n```$`). -/
def patFenceNl : List Char := ['`', '`', '`', '\n']

/-- One left-to-right global-replace scan of
`replace(/```json\n?|\n?```/g, '')`, fueled for structural recursion:
at each position the alternatives are tried in regex order (greedy optional
newlines), a match is deleted and scanning resumes after it, and a
non-matching character is kept. -/
def replAF : Nat → List Char → List Char
  | 0, s => s
  | _ + 1, [] => []
  | fu + 1, c :: r =>
    if patFenceJsonNl.isPrefixOf (c :: r) then replAF fu ((c :: r).drop 8)
    else if patFenceJson.isPrefixOf (c :: r) then replAF fu ((c :: r).drop 7)
    else if patNlFence.isPrefixOf (c :: r) then replAF fu ((c :: r).drop 4)
    else if patFence.isPrefixOf (c :: r) then replAF fu ((c :: r).drop 3)
    else c :: replAF fu r

/-- `cleanResult.replace(/```json\n?|\n?```/g, '')`. -/
def replAll (s : List Char) : List Char := replAF (s.length + 1) s

/-- Strip one leading fence (`^```\n?` greedily), used for both ends of
`replace(/^```\n?|\n?```$/g, '')` (the trailing alternative is the same
pattern on the reversed string). -/
def stripLead (s : List Char) : List Char :=
  if patFenceNl.isPrefixOf s then s.drop 4
  else if patFence.isPrefixOf s then s.drop 3
  else s

/-- `cleanResult.replace(/^```\n?|\n?```$/g, '')`: without the multiline flag
the anchored alternatives can only delete one leading `³backtick(\n?)` and one
trailing `(\n?)³backtick`. -/
def replEnds (s : List Char) : List Char :=
  (stripLead ((stripLead s).reverse)).reverse

/-- `cleanResult.replace(/^json\s*/, '')`. -/
def replJsonTag (s : List Char) : List Char :=
  if (['j', 's', 'o', 'n'] : List Char).isPrefixOf s then (s.drop 4).dropWhile isJsWs
  else s

/-- `cleanResult.match(/\x7b[\s\S]*\x7d/)`: the greedy outer-brace span, from
the first opening brace to the last closing brace after it, if any. -/
def braceMatch (s : List Char) : Option (List Char) :=
  let a := s.dropWhile (fun c => decide (c ≠ '{'))
  let b := (a.reverse.dropWhile (fun c => decide (c ≠ '}'))).reverse
  if 2 ≤ b.length then some b else none

/-- The candidate text handed to `JSON.parse` by `parseAnalysisResult`:
trim, strip fences, strip a bare leading language tag, then narrow to the
outer-brace span when one exists. -/
def candidateText (s : List Char) : List Char :=
  let c := replJsonTag (replEnds (replAll (trimJs s)))
  match braceMatch c with
  | some m => m
  | none => c

/-- Key `summary`. -/
def keySummary : List Nat := strUnits "summary"

/-- Key `timeline`. -/
def keyTimeline : List Nat := strUnits "timeline"

/-- Key `insights`. -/
def keyInsights : List Nat := strUnits "insights"

/-- Truthiness validation of the three top-level keys,
`parsedData.summary && parsedData.timeline && parsedData.insights`. -/
def truthyKeys (v : JsonVal) : Bool :=
  jtruthy (getField v keySummary) && jtruthy (getField v keyTimeline) &&
    jtruthy (getField v keyInsights)

/-- `parseAnalysisResult` from `src/utils/analysisParser.ts` on character
lists: normalise the text, `JSON.parse` the candidate, return the decoded tree
when the three keys are truthy and `null` (`none`) on any decode failure or
failed validation (the property access on a decoded `null` throws in JS and is
caught by the surrounding try/catch, which also yields `null`). -/
def parseAnalysisCore (s : List Char) : Option JsonVal :=
  match jparse (candidateText s) with
  | none => none
  | some v => if truthyKeys v then some v else none

/-- `parseAnalysisResult` on Lean strings. -/
def parseAnalysisResult (s : String) : Option JsonVal := parseAnalysisCore s.data

/-! ## `useMediaCapture.ts`: the capture session controller -/

/-- The `'photo' | 'video'` media kind. -/
inductive MediaType where
  | photo : MediaType
  | video : MediaType
  deriving DecidableEq

/-- The `geminiAnalysis` sub-record of `CapturedMedia`
(`src/types/media.ts`).  Absent optional fields are `none`. -/
structure GeminiAnalysis where
  result : String
  prompt : String
  timestamp : Int
  isProcessing : Option Bool := none
  error : Option String := none
  pushupData : Option JsonVal := none

/-- `CapturedMedia` (`src/types/media.ts`).  The blob is opaque binary
content, modelled by a token. -/
structure CapturedMedia where
  id : String
  type : MediaType
  url : String
  blob : Nat
  timestamp : Int
  filename : String
  indexedDbId : Option String := none
  geminiAnalysis : Option GeminiAnalysis := none

/-- `StoredMediaData` (`src/utils/indexedDb.ts` interface, as used by the
hook): the record layout persisted to the Durable Media Store. -/
structure StoredMediaData where
  id : String
  type : MediaType
  blob : Nat
  timestamp : Int
  filename : String
  geminiAnalysis : Option GeminiAnalysis := none

/-- Modelled from the spec: the Durable Media Store contract of §4.1
(`src/utils/indexedDb.ts` is not among the provided sources; only its callers
are).  The store is a key-to-record map; `put` is idempotent by key with
update semantics when the key already exists, and the hook's calls key every
record by its `id` field, which `storeMedia` hands back as the IndexedDB
key captured into `indexedDbId`. -/
def storePut (rec : StoredMediaData) :
    List (String × StoredMediaData) → List (String × StoredMediaData)
  | [] => [(rec.id, rec)]
  | (k, r) :: rest => if k = rec.id then (k, rec) :: rest else (k, r) :: storePut rec rest

/-- Modelled from the spec: `delete(key)` of the Durable Media Store
removes the record stored under the key. -/
def storeDelete (key : String) (store : List (String × StoredMediaData)) :
    List (String × StoredMediaData) :=
  store.filter (fun p => decide (p.1 ≠ key))

/-- The controller state: the in-memory `capturedMedia` list plus the
Durable Media Store contents. -/
structure ProcState where
  media : List CapturedMedia
  store : List (String × StoredMediaData)

/-- JS truthiness of an optional string (`undefined` and `""` are falsy),
as used by `if (media.indexedDbId)` and `result.success && result.result`. -/
def jsTruthyStr : Option String → Bool
  | some s => !s.isEmpty
  | none => false

/-- `GeminiVideoProcessingResult` from `src/utils/geminiService.ts`. -/
structure GeminiResult where
  success : Bool
  result : Option String := none
  error : Option String := none

/-- The failure message recorded by `processVideoWithGemini`:
`result.error || 'Analysis failed'`. -/
def failureMessage (res : GeminiResult) : String :=
  match res.error with
  | some e => if e.isEmpty then "Analysis failed" else e
  | none => "Analysis failed"

/-- Rebuild the `StoredMediaData` written back by the hook for a record and
an annotation. -/
def storedOf (m : CapturedMedia) (g : Option GeminiAnalysis) : StoredMediaData :=
  { id := m.id, type := m.type, blob := m.blob, timestamp := m.timestamp,
    filename := m.filename, geminiAnalysis := g }

/-- The annotation written by the success branch of `processVideoWithGemini`:
response text, parsed structured data, `pending` cleared. -/
def updatedAnalysisOf (g : GeminiAnalysis) (text : String) : GeminiAnalysis :=
  { g with result := text, pushupData := parseAnalysisResult text,
           isProcessing := some false }

/-- The annotation written by the failure branch of `processVideoWithGemini`:
`pending` cleared and the failure reason recorded. -/
def errorAnalysisOf (g : GeminiAnalysis) (res : GeminiResult) : GeminiAnalysis :=
  { g with isProcessing := some false, error := some (failureMessage res) }

/-- The body of `processVideoWithGemini` past its early-return guard, for a
record whose annotation is `g`. -/
def processVideoCore (m : CapturedMedia) (g : GeminiAnalysis) (res : GeminiResult)
    (st : ProcState) : ProcState :=
  if res.success && jsTruthyStr res.result then
    let updatedAnalysis := updatedAnalysisOf g (res.result.getD "")
    { media := st.media.map (fun x =>
        if x.id = m.id then { x with geminiAnalysis := some updatedAnalysis } else x),
      store :=
        if jsTruthyStr m.indexedDbId then storePut (storedOf m (some updatedAnalysis)) st.store
        else st.store }
  else
    { media := st.media.map (fun x =>
        if x.id = m.id then { x with geminiAnalysis := some (errorAnalysisOf g res) } else x),
      store := st.store }

/-- `processVideoWithGemini` (`src/hooks/useMediaCapture.ts`, lines 78-159):
the completion of one inference submission for `m`, whose asynchronous
outcome is the explicit `res`.  The guard models the source's early return
`if (media.type !== 'video' || !media.geminiAnalysis) return`.  On success
the updated annotation is applied to the in-memory record by id and, when
`media.indexedDbId` is truthy, written through to the store; on failure the
error annotation is applied to the in-memory record by id only — the failure
branch performs no store write.  (The source's catch block, lines 140-158,
likewise updates memory only, with the fixed message "Processing failed".) -/
def processVideoWithGemini (m : CapturedMedia) (res : GeminiResult) (st : ProcState) :
    ProcState :=
  if m.type = .video then
    match m.geminiAnalysis with
    | some g => processVideoCore m g res st
    | none => st
  else st

/-- The default structured-report prompt attached by `addMedia`
(lines 172-208 of the hook), verbatim. -/
def defaultPushupPrompt : String :=
  "Analyze this pushup video and provide detailed structured information. Return ONLY a valid JSON object with this exact structure:\n\n\x7b\n  \"summary\": \x7b\n    \"totalCount\": <number>,\n    \"validPushups\": <number>,\n    \"invalidPushups\": <number>,\n    \"duration\": \"<MM:SS>\",\n    \"averageRepsPerMinute\": <number>\n  \x7d,\n  \"quality\": \x7b\n    \"overallScore\": <1-10>,\n    \"formNotes\": [\"<note1>\", \"<note2>\"],\n    \"commonIssues\": [\"<issue1>\", \"<issue2>\"]\n  \x7d,\n  \"timeline\": [\n    \x7b\n      \"repNumber\": <number>,\n      \"timestamp\": \"<MM:SS>\",\n      \"timestampSeconds\": <seconds>,\n      \"quality\": \"<excellent|good|poor|invalid>\",\n      \"notes\": \"<optional notes>\"\n    \x7d\n  ],\n  \"insights\": \x7b\n    \"bestRep\": \x7b\n      \"repNumber\": <number>,\n      \"timestamp\": \"<MM:SS>\",\n      \"timestampSeconds\": <seconds>,\n      \"reason\": \"<explanation>\"\n    \x7d,\n    \"improvementAreas\": [\"<area1>\", \"<area2>\"],\n    \"strengths\": [\"<strength1>\", \"<strength2>\"]\n  \x7d\n\x7d\n\nFocus on: rep count, form quality, timestamps, and actionable feedback. Be precise with timestamps."

/-- The eager pending annotation attached by `addMedia` for videos when the
inference capability is configured. -/
def pendingAnalysis (now : Int) : GeminiAnalysis :=
  { result := "", prompt := defaultPushupPrompt, timestamp := now,
    isProcessing := some true }

/-- `addMedia` (lines 161-249 of the hook).  `configured` is
`geminiService.isConfigured()`, `persistOk` the outcome of the awaited
`mediaDatabase.storeMedia` call, `now` the `Date.now()` value.  Returns the
new state together with the record handed to the background
`processVideoWithGemini` call, if one is triggered.  On persistence failure
the catch block prepends the ORIGINAL `media` value (without the eager
annotation) to the in-memory list and triggers nothing. -/
def addMedia (m : CapturedMedia) (configured : Bool) (persistOk : Bool) (now : Int)
    (st : ProcState) : ProcState × Option CapturedMedia :=
  let mediaWithProcessing :=
    if m.type = .video ∧ configured then
      { m with geminiAnalysis := some (pendingAnalysis now) }
    else m
  if persistOk then
    let store2 := storePut (storedOf mediaWithProcessing mediaWithProcessing.geminiAnalysis) st.store
    let mediaWithId := { mediaWithProcessing with indexedDbId := some mediaWithProcessing.id }
    ({ media := mediaWithId :: st.media, store := store2 },
      if m.type = .video ∧ configured then some mediaWithId else none)
  else
    ({ media := m :: st.media, store := st.store }, none)

/-- `removeMedia` (lines 251-269 of the hook): drop the record from the
in-memory list by id and, when it carries an `indexedDbId`, delete it from
the store (best-effort; a store failure is only logged). -/
def removeMedia (id : String) (st : ProcState) : ProcState :=
  let store2 :=
    match st.media.find? (fun m => m.id = id) with
    | some m =>
      match m.indexedDbId with
      | some k => storeDelete k st.store
      | none => st.store
    | none => st.store
  { media := st.media.filter (fun m => decide (m.id ≠ id)), store := store2 }

/-! ## `analysisParser.ts`: `reprocessAnalysis` -/

/-- The update applied by the `reprocessAnalysis` callback in
`loadPersistedMedia` (lines 39-53 of the hook): set `pushupData` on the
record's annotation.  The source dereferences `m.geminiAnalysis!`; a record
reached by the callback always has an annotation (`reprocessAnalysis` only
fires for items whose `geminiAnalysis.result` is truthy), so the
absent-annotation case is unreachable and modelled as a skip. -/
def updPushup (pd : JsonVal) (m : CapturedMedia) : CapturedMedia :=
  { m with geminiAnalysis := m.geminiAnalysis.map (fun g => { g with pushupData := some pd }) }

/-- The by-id state update performed by the callback. -/
def applyPushupUpdate (id : String) (pd : JsonVal) (l : List CapturedMedia) :
    List CapturedMedia :=
  l.map (fun m => if m.id = id then updPushup pd m else m)

/-- The guard of `reprocessAnalysis`'s loop: a video item whose annotation
has truthy (non-empty) `result`, falsy `pushupData` and falsy
`isProcessing`. -/
def reprocessQualifies (m : CapturedMedia) : Bool :=
  decide (m.type = .video) &&
    (match m.geminiAnalysis with
     | some g => !g.result.isEmpty && g.pushupData.isNone && decide (g.isProcessing ≠ some true)
     | none => false)

/-- The optional by-id update one `reprocessAnalysis` iteration derives from
an item: present exactly when the guard holds and the stored `result` text
re-parses, carrying the item's id and the recovered structured value. -/
def reprocessItem (m : CapturedMedia) : Option (String × JsonVal) :=
  if reprocessQualifies m then
    match m.geminiAnalysis with
    | some g => (parseAnalysisResult g.result).map (fun pd => (m.id, pd))
    | none => none
  else none

/-- `reprocessAnalysis` (`src/utils/analysisParser.ts`, lines 41-67),
composed with the state-update callback it is invoked with: iterate over the
snapshot, re-parse each qualifying item's stored `result` text, apply the
structured value by id to the evolving list on success, and count the
updates. -/
def reprocessAnalysis : List CapturedMedia → List CapturedMedia →
    List CapturedMedia × Nat
  | [], st => (st, 0)
  | m :: rest, st =>
    (reprocessItem m).elim (reprocessAnalysis rest st) (fun u =>
      ((reprocessAnalysis rest (applyPushupUpdate u.1 u.2 st)).1,
       (reprocessAnalysis rest (applyPushupUpdate u.1 u.2 st)).2 + 1))

/-! ## `PushupAnalysisOverlay.tsx`: the playback synchroniser -/

/-- One timeline entry of the structured analysis
(`PushupAnalysis.timeline` in `src/types/media.ts`). -/
structure RepEvent where
  repNumber : Int
  timestamp : String
  timestampSeconds : ℚ
  quality : String
  notes : Option String := none
  deriving DecidableEq

/-- The upper bound of a rep's active interval in `handleTimeUpdate`: the
`timestampSeconds` of the timeline entry whose `repNumber` is exactly one
greater (found by lookup, not position), or the video duration when no such
entry exists. -/
def nextRepBound (timeline : List RepEvent) (rep : RepEvent) (duration : ℚ) : ℚ :=
  match timeline.find? (fun r => decide (r.repNumber = rep.repNumber + 1)) with
  | some nr => nr.timestampSeconds
  | none => duration

/-- The `timeline.find` of `handleTimeUpdate` (lines 31-36 of the overlay):
the first entry with `timestampSeconds <= t < nextRepBound`. -/
def findActiveRep (timeline : List RepEvent) (t duration : ℚ) : Option RepEvent :=
  timeline.find? (fun rep =>
    decide (rep.timestampSeconds ≤ t) && decide (t < nextRepBound timeline rep duration))

/-- The component state of `PushupAnalysisOverlay` touched by
`handleTimeUpdate`. -/
structure OverlayState where
  currentTime : ℚ
  activeRep : Option Int
  deriving DecidableEq

/-- `handleTimeUpdate` (lines 27-39 of the overlay): store the video
element's new time, but compute the active rep from the `currentTime` state
variable captured by the closure — the PREVIOUS stored time, not the newly
read one. -/
def handleTimeUpdate (timeline : List RepEvent) (duration videoTime : ℚ)
    (s : OverlayState) : OverlayState :=
  { currentTime := videoTime,
    activeRep := (findActiveRep timeline s.currentTime duration).map (fun r => r.repNumber) }

/-- JS truthiness of a number (`0` is falsy). -/
def jsNumTruthy (n : Int) : Bool := decide (n ≠ 0)

/-- The timeline readout of line 141, `Rep {activeRep || '—'}`: the rep
number when truthy, the placeholder otherwise. -/
def activeRepLabel (activeRep : Option Int) : String :=
  match activeRep with
  | some n => if jsNumTruthy n then toString n else "—"
  | none => "—"

/-- Whether the current-rep info panel of lines 188-210,
`{activeRep && (...)}`, renders its subtree. -/
def showsCurrentRepInfo (activeRep : Option Int) : Bool :=
  match activeRep with
  | some n => jsNumTruthy n
  | none => false

/-! ## Concrete fixtures used by the claim theorems -/

/-- The timeline of the specification's worked example:
reps 1, 2 and 4 at 0 s, 10 s and 30 s (rep 3 is absent). -/
def exTimeline : List RepEvent :=
  [{ repNumber := 1, timestamp := "0:00", timestampSeconds := 0, quality := "good" },
   { repNumber := 2, timestamp := "0:10", timestampSeconds := 10, quality := "good" },
   { repNumber := 4, timestamp := "0:30", timestampSeconds := 30, quality := "excellent" }]

/-- The second entry (rep 2) of `exTimeline`. -/
def exRep2 : RepEvent :=
  { repNumber := 2, timestamp := "0:10", timestampSeconds := 10, quality := "good" }

/-- The third entry (rep 4) of `exTimeline`. -/
def exRep4 : RepEvent :=
  { repNumber := 4, timestamp := "0:30", timestampSeconds := 30, quality := "excellent" }

/-- A one-entry timeline used to exhibit the one-update lag. -/
def exLagTimeline : List RepEvent :=
  [{ repNumber := 1, timestamp := "0:05", timestampSeconds := 5, quality := "good" }]

/-- A persisted video record with a pending annotation and a storage key. -/
def exVideo : CapturedMedia :=
  { id := "v1", type := .video, url := "blob:v1", blob := 7, timestamp := 100,
    filename := "video_1.webm", indexedDbId := some "v1",
    geminiAnalysis := some (pendingAnalysis 100) }

/-- A photo record with an id different from `exVideo`'s. -/
def exPhoto : CapturedMedia :=
  { id := "p1", type := .photo, url := "blob:p1", blob := 3, timestamp := 50,
    filename := "photo_1.jpg" }

/-- A state holding `exVideo` in memory and in the store. -/
def exState : ProcState :=
  { media := [exVideo], store := [("v1", storedOf exVideo (some (pendingAnalysis 100)))] }

/-- A state holding both `exPhoto` and `exVideo` in memory. -/
def exState2 : ProcState := { media := [exPhoto, exVideo], store := [] }

/-- A failed inference outcome. -/
def exFailure : GeminiResult := { success := false, error := some "quota exceeded" }

/-- The annotation `processVideoWithGemini` writes in memory when
`exFailure` completes against `exVideo`. -/
def exFailedAnalysis : GeminiAnalysis := errorAnalysisOf (pendingAnalysis 100) exFailure

/-- A fresh, not-yet-persisted video record without an annotation. -/
def exFreshVideo : CapturedMedia :=
  { id := "v2", type := .video, url := "blob:v2", blob := 9, timestamp := 200,
    filename := "video_2.webm" }

/-- A RepAnalysis-shaped JSON text whose three top-level keys are present but
whose `summary` is the falsy value `0`. -/
def cexPresenceInput : String := "\x7b\"summary\":0,\"timeline\":[1],\"insights\":[1]\x7d"

/-- The decoded tree of `cexPresenceInput`. -/
def cexPresenceTree : JsonVal :=
  .jobj [(keySummary, .jnum 0 0), (keyTimeline, .jarr [.jnum 1 0]),
         (keyInsights, .jarr [.jnum 1 0])]

/-- A JSON text with truthy keys but malformed nested data (`timeline` is a
string). -/
def lenientInput : String := "\x7b\"summary\":true,\"timeline\":\"bogus\",\"insights\":[0]\x7d"

/-- The decoded tree of `lenientInput`. -/
def lenientTree : JsonVal :=
  .jobj [(keySummary, .jbool true), (keyTimeline, .jstr (strUnits "bogus")),
         (keyInsights, .jarr [.jnum 0 0])]

/-! ## Claim theorems: parser (C2, C3) -/

/-- C2 counterexample: a decoded tree that CONTAINS all three top-level keys
is nevertheless rejected when one of them holds a falsy value — presence of
the keys is not sufficient, so `parseAnalysisResult` does not return the
decoded tree for every input whose candidate decodes with the three keys
present. -/
theorem parse_presence_only_cex :
    jparse (candidateText cexPresenceInput.data) = some cexPresenceTree ∧
    (getField cexPresenceTree keySummary).isSome = true ∧
    (getField cexPresenceTree keyTimeline).isSome = true ∧
    (getField cexPresenceTree keyInsights).isSome = true ∧
    parseAnalysisResult cexPresenceInput = none :=
  ⟨rfl, rfl, rfl, rfl, rfl⟩

/-- C2 (amended): whenever the narrowed candidate text decodes to a tree
whose three top-level keys `summary`, `timeline`, `insights` are present with
TRUTHY values, `parseAnalysisResult` returns that tree unchanged — no deeper
per-field validation is performed, so malformed nested data propagates
as-is. -/
theorem parse_returns_tree_when_truthy :
    ∀ (s : String) (v : JsonVal),
      jparse (candidateText s.data) = some v →
      jtruthy (getField v keySummary) = true →
      jtruthy (getField v keyTimeline) = true →
      jtruthy (getField v keyInsights) = true →
      parseAnalysisResult s = some v := by
  intro s v hp h1 h2 h3
  unfold parseAnalysisResult parseAnalysisCore
  rw [hp]
  simp [truthyKeys, h1, h2, h3]

/-- Witness for C2: a tree whose `timeline` is the malformed string
`"bogus"` is returned as-is. -/
theorem parse_returns_tree_when_truthy_witness :
    parseAnalysisResult lenientInput = some lenientTree :=
  parse_returns_tree_when_truthy lenientInput lenientTree rfl rfl rfl rfl

/-- C3: for every input string whose candidate text fails to decode as JSON,
or decodes to a tree missing any of the keys `summary`, `timeline`,
`insights`, `parseAnalysisResult` returns the absent value (and, being a
total function, never raises). -/
theorem parse_absent_on_failure :
    ∀ s : String,
      (jparse (candidateText s.data) = none ∨
        ∃ v, jparse (candidateText s.data) = some v ∧
          (getField v keySummary = none ∨ getField v keyTimeline = none ∨
            getField v keyInsights = none)) →
      parseAnalysisResult s = none := by
  intro s h
  unfold parseAnalysisResult parseAnalysisCore
  rcases h with h | ⟨v, hv, hmiss⟩
  · rw [h]
  · rw [hv]
    have : truthyKeys v = false := by
      rcases hmiss with h1 | h1 | h1 <;> simp [truthyKeys, h1, jtruthy]
    simp [this]

/-- Witness for C3: undecodable prose yields the absent value. -/
theorem parse_absent_on_failure_witness :
    parseAnalysisResult "the model returned garbage" = none :=
  parse_absent_on_failure "the model returned garbage" (Or.inl rfl)

/-! ## Claim theorems: controller (C4, C5, C8) -/

/-- C4 counterexample: a failed inference for a record WITH a storage key
updates the in-memory annotation (`isProcessing=false`,
`error="quota exceeded"`) but leaves the Durable Media Store entry untouched
(still pending, no failure reason) — the failure branch is NOT applied to the
store the way the success branch is. -/
theorem processVideo_failure_store_cex :
    jsTruthyStr exVideo.indexedDbId = true ∧
    (processVideoWithGemini exVideo exFailure exState).media
      = [{ exVideo with geminiAnalysis := some exFailedAnalysis }] ∧
    exFailedAnalysis.isProcessing = some false ∧
    exFailedAnalysis.error = some "quota exceeded" ∧
    (processVideoWithGemini exVideo exFailure exState).store
      = [("v1", storedOf exVideo (some (pendingAnalysis 100)))] ∧
    (pendingAnalysis 100).isProcessing = some true ∧
    (pendingAnalysis 100).error = none :=
  ⟨rfl, rfl, rfl, rfl, rfl, rfl, rfl⟩

/-- C4 (amended): when the inference client reports failure for a video
record with an annotation, the controller applies the failure annotation
(`pending=false`, `failureReason` set) to the in-memory record by id, and the
Durable Media Store is left unchanged — the store write-back happens on the
success path only. -/
theorem processVideo_failure_memory_only :
    ∀ (m : CapturedMedia) (g : GeminiAnalysis) (res : GeminiResult) (st : ProcState),
      m.type = .video → m.geminiAnalysis = some g →
      (res.success && jsTruthyStr res.result) = false →
      (processVideoWithGemini m res st).media
        = st.media.map (fun x =>
            if x.id = m.id then
              { x with geminiAnalysis := some (errorAnalysisOf g res) }
            else x) ∧
      (processVideoWithGemini m res st).store = st.store ∧
      (errorAnalysisOf g res).isProcessing = some false ∧
      (errorAnalysisOf g res).error = some (failureMessage res) := by
  intro m g res st ht hg hres
  have hcore : processVideoWithGemini m res st = processVideoCore m g res st := by
    unfold processVideoWithGemini
    rw [if_pos ht, hg]
  rw [hcore]
  unfold processVideoCore
  rw [if_neg (by rw [hres]; exact Bool.false_ne_true)]
  exact ⟨rfl, rfl, rfl, rfl⟩

/-- Witness for C4: the failure completion for `exVideo` in `exState`. -/
theorem processVideo_failure_memory_only_witness :
    (processVideoWithGemini exVideo exFailure exState).store = exState.store :=
  (processVideo_failure_memory_only exVideo (pendingAnalysis 100) exFailure exState
    rfl rfl rfl).2.1

/-- C5 counterexample: adding a fresh video with inference available but a
FAILING persistence keeps the original, annotation-free record in memory —
the record held in memory does not carry the eager pending annotation when
persistence fails. -/
theorem addMedia_persist_failure_cex :
    (addMedia exFreshVideo true false 200 { media := [], store := [] }).1.media
      = [exFreshVideo] ∧
    exFreshVideo.geminiAnalysis = none :=
  ⟨rfl, rfl⟩

/-- C5 (amended): for a video added while inference is available, the pending
annotation with the default structured-report prompt is attached before
persistence is attempted, and the record held in memory carries it when
persistence succeeds; when persistence fails the record is still kept in
memory (capture is never lost) but it is the original, annotation-free value
that is kept. -/
theorem addMedia_annotation_behavior :
    ∀ (m : CapturedMedia) (now : Int) (st : ProcState),
      m.type = .video →
      ((addMedia m true true now st).1.media.head?
          = some { m with geminiAnalysis := some (pendingAnalysis now),
                          indexedDbId := some m.id } ∧
        (addMedia m true true now st).1.store
          = storePut (storedOf { m with geminiAnalysis := some (pendingAnalysis now) }
              (some (pendingAnalysis now))) st.store ∧
        (addMedia m true false now st).1.media = m :: st.media ∧
        m ∈ (addMedia m true false now st).1.media ∧
        (addMedia m true false now st).1.store = st.store) := by
  intro m now st ht
  unfold addMedia
  simp [ht]

/-- Witness for C5: adding `exFreshVideo` with persistence failing keeps it
in memory. -/
theorem addMedia_annotation_behavior_witness :
    exFreshVideo ∈ (addMedia exFreshVideo true false 200
      { media := [], store := [] }).1.media :=
  (addMedia_annotation_behavior exFreshVideo 200 { media := [], store := [] }
    rfl).2.2.2.1

/-- Helper: a by-id update maps every element whose id differs to itself. -/
theorem map_update_of_all_ne (i : String) (f : CapturedMedia → CapturedMedia)
    (l : List CapturedMedia) (h : ∀ x ∈ l, x.id ≠ i) :
    l.map (fun x => if x.id = i then f x else x) = l := by
  induction l with
  | nil => rfl
  | cons a tl ih =>
    have ha : a.id ≠ i := h a (List.mem_cons_self a tl)
    simp only [List.map_cons, if_neg ha]
    rw [ih (fun x hx => h x (List.mem_cons_of_mem a hx))]

/-- Helper: every completion either leaves the in-memory list unchanged or
applies a by-id annotation replacement. -/
theorem processVideo_media_shape (m : CapturedMedia) (res : GeminiResult) (st : ProcState) :
    (processVideoWithGemini m res st).media = st.media ∨
    ∃ g2 : GeminiAnalysis, (processVideoWithGemini m res st).media
      = st.media.map (fun y => if y.id = m.id then { y with geminiAnalysis := some g2 } else y) := by
  unfold processVideoWithGemini
  by_cases ht : m.type = .video
  · rw [if_pos ht]
    cases hg : m.geminiAnalysis with
    | none => exact Or.inl rfl
    | some g =>
      show (processVideoCore m g res st).media = st.media ∨
        ∃ g2, (processVideoCore m g res st).media
          = st.media.map (fun y => if y.id = m.id then { y with geminiAnalysis := some g2 } else y)
      unfold processVideoCore
      by_cases hres : (res.success && jsTruthyStr res.result) = true
      · rw [if_pos hres]
        exact Or.inr ⟨_, rfl⟩
      · rw [if_neg hres]
        exact Or.inr ⟨_, rfl⟩
  · rw [if_neg ht]
    exact Or.inl rfl

/-- Helper: a record whose id differs from the updated one stays in the
mapped list unchanged. -/
theorem mem_map_update_of_ne (i : String) (f : CapturedMedia → CapturedMedia)
    (l : List CapturedMedia) (x : CapturedMedia) (hx : x ∈ l) (hne : x.id ≠ i) :
    x ∈ l.map (fun y => if y.id = i then f y else y) := by
  have h := List.mem_map_of_mem (fun y => if y.id = i then f y else y) hx
  have h2 : (if x.id = i then f x else x) ∈ l.map (fun y => if y.id = i then f y else y) := h
  rwa [if_neg hne] at h2

/-- C8: the completion of an in-flight inference for a record that has been
removed leaves the in-memory collection unchanged (the by-id update on a
collection without that id is the identity), and an annotation update never
changes a record with a different id. -/
theorem inflight_completion_noop :
    ∀ (m : CapturedMedia) (res : GeminiResult) (st : ProcState),
      ((processVideoWithGemini m res (removeMedia m.id st)).media
          = (removeMedia m.id st).media) ∧
      (∀ x ∈ st.media, x.id ≠ m.id → x ∈ (processVideoWithGemini m res st).media) := by
  intro m res st
  have hfilter : ∀ x ∈ (removeMedia m.id st).media, x.id ≠ m.id := by
    intro x hx
    have hx2 : x ∈ st.media.filter (fun y => decide (y.id ≠ m.id)) := hx
    exact of_decide_eq_true (List.mem_filter.mp hx2).2
  constructor
  · rcases processVideo_media_shape m res (removeMedia m.id st) with h | ⟨g, h⟩
    · exact h
    · rw [h]
      exact map_update_of_all_ne m.id _ _ hfilter
  · intro x hx hne
    rcases processVideo_media_shape m res st with h | ⟨g, h⟩
    · rw [h]
      exact hx
    · rw [h]
      exact mem_map_update_of_ne m.id _ st.media x hx hne

/-- Witness for C8. -/
theorem inflight_completion_noop_witness :
    (processVideoWithGemini exVideo exFailure (removeMedia exVideo.id exState)).media
        = (removeMedia exVideo.id exState).media ∧
      exPhoto ∈ (processVideoWithGemini exVideo exFailure exState2).media :=
  ⟨(inflight_completion_noop exVideo exFailure exState).1,
    (inflight_completion_noop exVideo exFailure exState2).2 exPhoto
      (List.mem_cons_self _ _) (by decide)⟩

/-! ## Claim theorems: playback synchroniser (C6, C9, C10) -/

/-- C6: the active-rep selection picks the first timeline entry whose
`timestampSeconds <= t` and `t <` the timestamp of the entry with
`repNumber` one greater (looked up by repNumber; the video duration when no
such entry exists); on the example timeline the selection at 20 and at 35 is
rep 2 (not rep 4), rep 4's matching interval is exactly [30, 40), the upper
bound defaults to the duration when no `repNumber+1` entry exists, and no
entry is active when no lower bound is satisfied. -/
theorem activeRep_selection_spec :
    (findActiveRep exTimeline 20 40 = some exRep2) ∧
    (findActiveRep exTimeline 35 40 = some exRep2) ∧
    (∀ t : ℚ, (exRep4.timestampSeconds ≤ t ∧ t < nextRepBound exTimeline exRep4 40)
        ↔ (30 ≤ t ∧ t < 40)) ∧
    (∀ (tl : List RepEvent) (rep : RepEvent) (d : ℚ),
      (∀ r ∈ tl, r.repNumber ≠ rep.repNumber + 1) → nextRepBound tl rep d = d) ∧
    (∀ (tl : List RepEvent) (t d : ℚ),
      (∀ r ∈ tl, t < r.timestampSeconds) → findActiveRep tl t d = none) := by
  refine ⟨by decide, by decide, ?_, ?_, ?_⟩
  · intro t
    have hb : nextRepBound exTimeline exRep4 40 = 40 := by decide
    rw [hb]
    exact Iff.rfl
  · intro tl rep d h
    unfold nextRepBound
    have : tl.find? (fun r => decide (r.repNumber = rep.repNumber + 1)) = none := by
      rw [List.find?_eq_none]
      intro x hx
      simp [h x hx]
    rw [this]
  · intro tl t d h
    unfold findActiveRep
    rw [List.find?_eq_none]
    intro x hx
    have : ¬ (x.timestampSeconds ≤ t) := not_le.mpr (h x hx)
    simp [this]

/-- Witness for C6: rep 4 has no successor entry in the example timeline, so
its upper bound is the duration; and a time before every entry is inactive. -/
theorem activeRep_selection_spec_witness :
    nextRepBound exTimeline exRep4 40 = 40 ∧
    findActiveRep exTimeline (-5) 40 = none :=
  ⟨activeRep_selection_spec.2.2.2.1 exTimeline exRep4 40 (by decide),
    activeRep_selection_spec.2.2.2.2 exTimeline (-5) 40 (by decide)⟩

/-- C9: the time-update handler stores the newly read video time but computes
the active rep from the PREVIOUSLY stored time, so after two consecutive
updates at times t1 then t2 the displayed rep is the one determined by t1;
concretely, updating to time 6 from a stored time 0 leaves no rep active even
though rep 1 is active at 6. -/
theorem handleTimeUpdate_stale_time :
    (∀ (tl : List RepEvent) (d vt : ℚ) (s : OverlayState),
      (handleTimeUpdate tl d vt s).currentTime = vt ∧
      (handleTimeUpdate tl d vt s).activeRep
        = (findActiveRep tl s.currentTime d).map (fun r => r.repNumber)) ∧
    (∀ (tl : List RepEvent) (d t1 t2 : ℚ) (s : OverlayState),
      (handleTimeUpdate tl d t2 (handleTimeUpdate tl d t1 s)).activeRep
        = (findActiveRep tl t1 d).map (fun r => r.repNumber)) ∧
    ((handleTimeUpdate exLagTimeline 10 6 { currentTime := 0, activeRep := none }).activeRep
        = none ∧
      (findActiveRep exLagTimeline 6 10).map (fun r => r.repNumber) = some 1) :=
  ⟨fun _ _ _ _ => ⟨rfl, rfl⟩, fun _ _ _ _ _ => rfl, by decide, by decide⟩

/-- C10: when the selected timeline entry has `repNumber = 0` the overlay
renders as if no rep were active — the readout falls back to the placeholder
and the current-rep info panel is not rendered — because both rendering sites
test the stored number for truthiness, under which 0 is indistinguishable
from null. -/
theorem rep_zero_renders_inactive :
    (∀ (tl : List RepEvent) (d vt : ℚ) (s : OverlayState) (rep : RepEvent),
      findActiveRep tl s.currentTime d = some rep → rep.repNumber = 0 →
      activeRepLabel (handleTimeUpdate tl d vt s).activeRep = "—" ∧
      showsCurrentRepInfo (handleTimeUpdate tl d vt s).activeRep = false) ∧
    activeRepLabel (some 0) = activeRepLabel none ∧
    showsCurrentRepInfo (some 0) = showsCurrentRepInfo none ∧
    activeRepLabel (some 2) = "2" ∧
    showsCurrentRepInfo (some 2) = true := by
  refine ⟨?_, rfl, rfl, by decide, by decide⟩
  intro tl d vt s rep hfind hzero
  have ha : (handleTimeUpdate tl d vt s).activeRep = some (0 : Int) := by
    show (findActiveRep tl s.currentTime d).map (fun r => r.repNumber) = some 0
    rw [hfind]
    show some rep.repNumber = some 0
    rw [hzero]
  rw [ha]
  exact ⟨rfl, rfl⟩

/-- A timeline whose single entry has rep number 0. -/
def exZeroTimeline : List RepEvent :=
  [{ repNumber := 0, timestamp := "0:00", timestampSeconds := 0, quality := "poor" }]

/-- Witness for C10: with a rep-0 entry active, the readout shows the
placeholder and the panel is hidden. -/
theorem rep_zero_renders_inactive_witness :
    activeRepLabel (handleTimeUpdate exZeroTimeline 10 1
        { currentTime := 0, activeRep := none }).activeRep = "—" ∧
    showsCurrentRepInfo (handleTimeUpdate exZeroTimeline 10 1
        { currentTime := 0, activeRep := none }).activeRep = false :=
  rep_zero_renders_inactive.1 exZeroTimeline 10 1 { currentTime := 0, activeRep := none }
    { repNumber := 0, timestamp := "0:00", timestampSeconds := 0, quality := "poor" }
    (by decide) rfl

/-! ## Claim theorems: reprocessing (C7) -/

/-- The effect of one `reprocessAnalysis` iteration on the item itself:
re-parse and set `pushupData` when the guard holds and parsing succeeds,
otherwise leave the record unchanged. -/
def reprocessStep (m : CapturedMedia) : CapturedMedia :=
  (reprocessItem m).elim m (fun u => updPushup u.2 m)

/-- Whether one `reprocessAnalysis` iteration counts the item. -/
def reprocessCounts (m : CapturedMedia) : Bool := (reprocessItem m).isSome

/-- The by-id updates emitted by a `reprocessAnalysis` pass over a
snapshot. -/
def reprocessUpdates (l : List CapturedMedia) : List (String × JsonVal) :=
  l.filterMap reprocessItem

/-- Apply a list of by-id updates to the state, in order. -/
def applyUpdates (us : List (String × JsonVal)) (st : List CapturedMedia) :
    List CapturedMedia :=
  us.foldl (fun s u => applyPushupUpdate u.1 u.2 s) st

/-- Apply a list of by-id updates to one record. -/
def applyAllTo (us : List (String × JsonVal)) (x : CapturedMedia) : CapturedMedia :=
  us.foldl (fun y u => if y.id = u.1 then updPushup u.2 y else y) x

/-- Equation: one `reprocessAnalysis` step, in terms of `reprocessItem`. -/
theorem reprocessAnalysis_cons (m : CapturedMedia) (rest st : List CapturedMedia) :
    reprocessAnalysis (m :: rest) st
      = (reprocessItem m).elim (reprocessAnalysis rest st) (fun u =>
          ((reprocessAnalysis rest (applyPushupUpdate u.1 u.2 st)).1,
           (reprocessAnalysis rest (applyPushupUpdate u.1 u.2 st)).2 + 1)) := by
  simp only [reprocessAnalysis]

/-- Equation: `reprocessItem` when the guard holds and the text parses. -/
theorem reprocessItem_parsed {m : CapturedMedia} {g : GeminiAnalysis} {pd : JsonVal}
    (hq : reprocessQualifies m = true) (hg : m.geminiAnalysis = some g)
    (hp : parseAnalysisResult g.result = some pd) :
    reprocessItem m = some (m.id, pd) := by
  unfold reprocessItem
  rw [if_pos hq, hg]
  show (parseAnalysisResult g.result).map (fun pd => (m.id, pd)) = some (m.id, pd)
  rw [hp]
  rfl

/-- Equation: `reprocessItem` carries the item's own id. -/
theorem reprocessItem_id {m : CapturedMedia} {u : String × JsonVal}
    (h : reprocessItem m = some u) : u.1 = m.id := by
  unfold reprocessItem at h
  by_cases hq : reprocessQualifies m = true
  · rw [if_pos hq] at h
    cases hg : m.geminiAnalysis with
    | some g =>
      rw [hg] at h
      have h2 : (parseAnalysisResult g.result).map (fun pd => (m.id, pd)) = some u := h
      cases hp : parseAnalysisResult g.result with
      | some pd =>
        rw [hp] at h2
        cases h2
        rfl
      | none =>
        rw [hp] at h2
        cases h2
    | none =>
      rw [hg] at h
      cases h
  · rw [if_neg hq] at h
    cases h

/-- Equation: a non-qualifying item yields no update. -/
theorem reprocessItem_noqual {m : CapturedMedia}
    (hq : reprocessQualifies m = false) : reprocessItem m = none := by
  unfold reprocessItem
  rw [hq]
  rfl

/-- Helper: the count returned by a pass depends only on the snapshot. -/
theorem reprocess_count_eq (l : List CapturedMedia) :
    ∀ st, (reprocessAnalysis l st).2 = l.countP reprocessCounts := by
  induction l with
  | nil => intro st; rfl
  | cons m rest ih =>
    intro st
    rw [List.countP_cons, reprocessAnalysis_cons]
    cases h : reprocessItem m with
    | some u =>
      have e2 : reprocessCounts m = true := by unfold reprocessCounts; rw [h]; rfl
      rw [e2]
      show (reprocessAnalysis rest (applyPushupUpdate u.1 u.2 st)).2 + 1 = _
      rw [ih]
      simp
    | none =>
      have e2 : reprocessCounts m = false := by unfold reprocessCounts; rw [h]; rfl
      rw [e2]
      show (reprocessAnalysis rest st).2 = _
      rw [ih]
      simp

/-- Helper: the state returned by a pass is the snapshot's update list
applied to the initial state. -/
theorem reprocess_state_eq (l : List CapturedMedia) :
    ∀ st, (reprocessAnalysis l st).1 = applyUpdates (reprocessUpdates l) st := by
  induction l with
  | nil => intro st; rfl
  | cons m rest ih =>
    intro st
    rw [reprocessAnalysis_cons]
    have hupd : reprocessUpdates (m :: rest)
        = (reprocessItem m).elim (reprocessUpdates rest)
            (fun u => u :: reprocessUpdates rest) := by
      unfold reprocessUpdates
      rw [List.filterMap_cons]
      cases reprocessItem m <;> rfl
    rw [hupd]
    cases h : reprocessItem m with
    | some u =>
      show (reprocessAnalysis rest (applyPushupUpdate u.1 u.2 st)).1
        = applyUpdates (u :: reprocessUpdates rest) st
      rw [ih]
      rfl
    | none =>
      show (reprocessAnalysis rest st).1 = applyUpdates (reprocessUpdates rest) st
      exact ih st

/-- Helper: applying updates to a list is applying them pointwise. -/
theorem applyUpdates_eq_map (us : List (String × JsonVal)) :
    ∀ st, applyUpdates us st = st.map (applyAllTo us) := by
  induction us with
  | nil =>
    intro st
    show st = st.map (applyAllTo [])
    rw [show applyAllTo ([] : List (String × JsonVal)) = fun x => x from rfl]
    exact (List.map_id' st).symm
  | cons u us ih =>
    intro st
    show applyUpdates us (applyPushupUpdate u.1 u.2 st) = st.map (applyAllTo (u :: us))
    rw [ih (applyPushupUpdate u.1 u.2 st)]
    unfold applyPushupUpdate
    rw [List.map_map]
    rfl

/-- Helper: `updPushup` preserves the id. -/
theorem updPushup_id (pd : JsonVal) (m : CapturedMedia) : (updPushup pd m).id = m.id := rfl

/-- Helper: updates whose ids all differ from the record's leave it
unchanged. -/
theorem applyAllTo_of_not_mem (us : List (String × JsonVal)) (x : CapturedMedia)
    (h : ∀ u ∈ us, x.id ≠ u.1) : applyAllTo us x = x := by
  induction us with
  | nil => rfl
  | cons u us ih =>
    show applyAllTo us (if x.id = u.1 then updPushup u.2 x else x) = x
    rw [if_neg (h u (List.mem_cons_self u us))]
    exact ih (fun v hv => h v (List.mem_cons_of_mem u hv))

/-- Helper: every update id produced from a snapshot is the id of a snapshot
record. -/
theorem reprocessUpdates_ids (l : List CapturedMedia) :
    ∀ u ∈ reprocessUpdates l, u.1 ∈ l.map (fun m => m.id) := by
  induction l with
  | nil => intro u hu; cases hu
  | cons m rest ih =>
    intro u hu
    unfold reprocessUpdates at hu
    rw [List.filterMap_cons] at hu
    cases h : reprocessItem m with
    | some v =>
      rw [h] at hu
      rcases List.mem_cons.mp hu with hu | hu
      · rw [hu, reprocessItem_id h]
        exact List.mem_cons_self _ _
      · exact List.mem_cons_of_mem _ (ih u hu)
    | none =>
      rw [h] at hu
      exact List.mem_cons_of_mem _ (ih u hu)

/-- Helper: a qualifying record has an annotation. -/
theorem reprocessQualifies_some {m : CapturedMedia} (h : reprocessQualifies m = true) :
    ∃ g, m.geminiAnalysis = some g := by
  cases hg : m.geminiAnalysis with
  | some g => exact ⟨g, rfl⟩
  | none =>
    unfold reprocessQualifies at h
    rw [hg] at h
    simp at h

/-- Helper: an item that yields an update qualifies. -/
theorem reprocessItem_qualifies {m : CapturedMedia} {u : String × JsonVal}
    (h : reprocessItem m = some u) : reprocessQualifies m = true := by
  by_contra hq0
  rw [Bool.not_eq_true] at hq0
  rw [reprocessItem_noqual hq0] at h
  cases h

/-- Helper: under unique ids, the whole update list acts on each snapshot
record exactly as its own step. -/
theorem applyAllTo_eq_step (l : List CapturedMedia)
    (hnd : (l.map (fun m => m.id)).Nodup) :
    ∀ x ∈ l, applyAllTo (reprocessUpdates l) x = reprocessStep x := by
  induction l with
  | nil => intro x hx; cases hx
  | cons m rest ih =>
    have hmid : m.id ∉ rest.map (fun m2 => m2.id) := by
      have h0 := (List.nodup_cons.mp hnd).1
      simpa using h0
    have hndr : (rest.map (fun m2 => m2.id)).Nodup := (List.nodup_cons.mp hnd).2
    intro x hx
    have hupd : reprocessUpdates (m :: rest)
        = (reprocessItem m).elim (reprocessUpdates rest)
            (fun u => u :: reprocessUpdates rest) := by
      unfold reprocessUpdates
      rw [List.filterMap_cons]
      cases reprocessItem m <;> rfl
    have hndr2 : (rest.map (fun m => m.id)).Nodup := hndr
    rcases List.mem_cons.mp hx with hxm | hxr
    · cases h : reprocessItem m with
      | some u =>
        rw [hxm, hupd, h]
        have hstep : reprocessStep m = updPushup u.2 m := by
          unfold reprocessStep
          rw [h]
          rfl
        show applyAllTo (reprocessUpdates rest)
            (if m.id = u.1 then updPushup u.2 m else m) = reprocessStep m
        rw [if_pos (reprocessItem_id h).symm, hstep]
        apply applyAllTo_of_not_mem
        intro v hv hcon
        apply hmid
        rw [show (updPushup u.2 m).id = m.id from rfl] at hcon
        rw [hcon]
        simpa using reprocessUpdates_ids rest v hv
      | none =>
        rw [hxm, hupd, h]
        have hstep : reprocessStep m = m := by
          unfold reprocessStep
          rw [h]
          rfl
        show applyAllTo (reprocessUpdates rest) m = reprocessStep m
        rw [hstep]
        apply applyAllTo_of_not_mem
        intro v hv hcon
        apply hmid
        rw [hcon]
        simpa using reprocessUpdates_ids rest v hv
    · have hxid : x.id ∈ rest.map (fun m2 => m2.id) := List.mem_map_of_mem _ hxr
      have hxne : x.id ≠ m.id := by
        intro hcon
        apply hmid
        rw [← hcon]
        exact hxid
      cases h : reprocessItem m with
      | some u =>
        rw [hupd, h]
        show applyAllTo (reprocessUpdates rest)
            (if x.id = u.1 then updPushup u.2 x else x) = reprocessStep x
        rw [if_neg (by rw [reprocessItem_id h]; exact hxne)]
        exact ih hndr2 x hxr
      | none =>
        rw [hupd, h]
        exact ih hndr2 x hxr

/-- Helper: a stepped record is never counted again. -/
theorem reprocessCounts_step_false (m : CapturedMedia) :
    reprocessCounts (reprocessStep m) = false := by
  cases h : reprocessItem m with
  | none =>
    have hstep : reprocessStep m = m := by
      unfold reprocessStep
      rw [h]
      rfl
    rw [hstep]
    unfold reprocessCounts
    rw [h]
    rfl
  | some u =>
    have hstep : reprocessStep m = updPushup u.2 m := by
      unfold reprocessStep
      rw [h]
      rfl
    rw [hstep]
    obtain ⟨g, hg⟩ := reprocessQualifies_some (reprocessItem_qualifies h)
    have hga : (updPushup u.2 m).geminiAnalysis
        = some { g with pushupData := some u.2 } := by
      unfold updPushup
      rw [hg]
      rfl
    have hq : reprocessQualifies (updPushup u.2 m) = false := by
      unfold reprocessQualifies
      rw [hga]
      simp
    unfold reprocessCounts
    rw [reprocessItem_noqual hq]
    rfl

/-- C7: `reprocessAnalysis` returns the number of records whose guard holds
(video, non-empty stored text, no structured value, not pending) and whose
text re-parses — only those are updated; its pass over a snapshot with unique
ids maps each record to its own re-parse step (it consults no inference
outcome, only the already-stored `result` texts); and a second pass over the
result of a first pass updates zero additional records. -/
theorem reprocess_idempotent :
    ∀ l : List CapturedMedia,
      ((reprocessAnalysis l l).2 = l.countP reprocessCounts) ∧
      ((l.map (fun m => m.id)).Nodup →
        (reprocessAnalysis l l).1 = l.map reprocessStep ∧
        (reprocessAnalysis (reprocessAnalysis l l).1
            (reprocessAnalysis l l).1).2 = 0) := by
  intro l
  refine ⟨reprocess_count_eq l l, fun hnd => ?_⟩
  have hstate : (reprocessAnalysis l l).1 = l.map reprocessStep := by
    rw [reprocess_state_eq l l, applyUpdates_eq_map]
    exact List.map_congr_left (applyAllTo_eq_step l hnd)
  refine ⟨hstate, ?_⟩
  rw [reprocess_count_eq, hstate, List.countP_map, List.countP_eq_zero]
  intro m _
  show ¬ reprocessCounts (reprocessStep m) = true
  rw [reprocessCounts_step_false]
  exact Bool.false_ne_true

/-- A restored video record whose stored text was never structurally
parsed. -/
def exUnparsed : CapturedMedia :=
  { id := "u1", type := .video, url := "blob:u1", blob := 1, timestamp := 10,
    filename := "u.webm",
    geminiAnalysis := some { result := lenientInput, prompt := "p", timestamp := 10 } }

/-- Witness for C7: one unparsed record is updated by the first pass and no
record is updated by the second. -/
theorem reprocess_idempotent_witness :
    (reprocessAnalysis [exUnparsed] [exUnparsed]).2 = 1 ∧
    (reprocessAnalysis (reprocessAnalysis [exUnparsed] [exUnparsed]).1
        (reprocessAnalysis [exUnparsed] [exUnparsed]).1).2 = 0 :=
  ⟨by rw [(reprocess_idempotent [exUnparsed]).1]; rfl,
   ((reprocess_idempotent [exUnparsed]).2 (by decide)).2⟩

/-! ## Claim C1: recovery of embedded JSON — scan lemmas -/

/-- Helper: the scan result does not depend on the fuel, provided the fuel
exceeds the input length. -/
theorem replAF_irrel : ∀ (fu1 fu2 : Nat) (s : List Char),
    s.length < fu1 → s.length < fu2 → replAF fu1 s = replAF fu2 s := by
  intro fu1
  induction fu1 with
  | zero =>
    intro fu2 s h1 _
    exact absurd h1 (Nat.not_lt_zero _)
  | succ n ih =>
    intro fu2 s h1 h2
    cases fu2 with
    | zero => exact absurd h2 (Nat.not_lt_zero _)
    | succ m =>
      cases s with
      | nil => rfl
      | cons c r =>
        simp only [List.length_cons] at h1 h2
        simp only [replAF]
        split_ifs
        · exact ih m _ (by rw [List.length_drop]; simp only [List.length_cons]; omega)
            (by rw [List.length_drop]; simp only [List.length_cons]; omega)
        · exact ih m _ (by rw [List.length_drop]; simp only [List.length_cons]; omega)
            (by rw [List.length_drop]; simp only [List.length_cons]; omega)
        · exact ih m _ (by rw [List.length_drop]; simp only [List.length_cons]; omega)
            (by rw [List.length_drop]; simp only [List.length_cons]; omega)
        · exact ih m _ (by rw [List.length_drop]; simp only [List.length_cons]; omega)
            (by rw [List.length_drop]; simp only [List.length_cons]; omega)
        · rw [ih m r (by omega) (by omega)]

/-- Helper: any sufficient fuel computes `replAll`. -/
theorem replAll_eq_replAF (fu : Nat) (s : List Char) (h : s.length < fu) :
    replAF fu s = replAll s :=
  replAF_irrel fu (s.length + 1) s h (Nat.lt_succ_self _)

/-- Helper: the scan keeps a character at which no alternative matches. -/
theorem replAll_cons_nomatch (c : Char) (r : List Char)
    (hA : ¬ patFenceJsonNl.isPrefixOf (c :: r) = true)
    (hB : ¬ patFenceJson.isPrefixOf (c :: r) = true)
    (hC : ¬ patNlFence.isPrefixOf (c :: r) = true)
    (hD : ¬ patFence.isPrefixOf (c :: r) = true) :
    replAll (c :: r) = c :: replAll r := by
  show replAF ((c :: r).length + 1) (c :: r) = c :: replAll r
  simp only [List.length_cons, replAF]
  rw [if_neg hA, if_neg hB, if_neg hC, if_neg hD]
  rw [replAll_eq_replAF (r.length + 1) r (Nat.lt_succ_self _)]

/-- Helper: the scan deletes a match of the first alternative (with its
trailing newline) and resumes after it. -/
theorem replAll_skipA (s : List Char) (hA : patFenceJsonNl.isPrefixOf s = true) :
    replAll s = replAll (s.drop 8) := by
  cases s with
  | nil => exact absurd hA (by decide)
  | cons c r =>
    show replAF ((c :: r).length + 1) (c :: r) = replAll ((c :: r).drop 8)
    simp only [List.length_cons, replAF]
    rw [if_pos hA]
    exact replAll_eq_replAF _ _ (by rw [List.length_drop]; simp only [List.length_cons]; omega)

/-- Helper: the scan deletes a match of the first alternative (without the
newline) and resumes after it. -/
theorem replAll_skipB (s : List Char)
    (hA : ¬ patFenceJsonNl.isPrefixOf s = true)
    (hB : patFenceJson.isPrefixOf s = true) :
    replAll s = replAll (s.drop 7) := by
  cases s with
  | nil => exact absurd hB (by decide)
  | cons c r =>
    show replAF ((c :: r).length + 1) (c :: r) = replAll ((c :: r).drop 7)
    simp only [List.length_cons, replAF]
    rw [if_neg hA, if_pos hB]
    exact replAll_eq_replAF _ _ (by rw [List.length_drop]; simp only [List.length_cons]; omega)

/-- Helper: the scan deletes a match of the second alternative (with its
leading newline) and resumes after it. -/
theorem replAll_skipC (s : List Char)
    (hA : ¬ patFenceJsonNl.isPrefixOf s = true)
    (hB : ¬ patFenceJson.isPrefixOf s = true)
    (hC : patNlFence.isPrefixOf s = true) :
    replAll s = replAll (s.drop 4) := by
  cases s with
  | nil => exact absurd hC (by decide)
  | cons c r =>
    show replAF ((c :: r).length + 1) (c :: r) = replAll ((c :: r).drop 4)
    simp only [List.length_cons, replAF]
    rw [if_neg hA, if_neg hB, if_pos hC]
    exact replAll_eq_replAF _ _ (by rw [List.length_drop]; simp only [List.length_cons]; omega)

/-- Helper: the scan deletes a bare fence match and resumes after it. -/
theorem replAll_skipD (s : List Char)
    (hA : ¬ patFenceJsonNl.isPrefixOf s = true)
    (hB : ¬ patFenceJson.isPrefixOf s = true)
    (hC : ¬ patNlFence.isPrefixOf s = true)
    (hD : patFence.isPrefixOf s = true) :
    replAll s = replAll (s.drop 3) := by
  cases s with
  | nil => exact absurd hD (by decide)
  | cons c r =>
    show replAF ((c :: r).length + 1) (c :: r) = replAll ((c :: r).drop 3)
    simp only [List.length_cons, replAF]
    rw [if_neg hA, if_neg hB, if_neg hC, if_pos hD]
    exact replAll_eq_replAF _ _ (by rw [List.length_drop]; simp only [List.length_cons]; omega)

/-- Helper: the scan only ever deletes characters. -/
theorem replAF_subset : ∀ (fu : Nat) (s : List Char), ∀ c ∈ replAF fu s, c ∈ s := by
  intro fu
  induction fu with
  | zero => intro s c hc; exact hc
  | succ n ih =>
    intro s c hc
    cases s with
    | nil => cases hc
    | cons a r =>
      simp only [replAF] at hc
      split_ifs at hc
      · exact List.mem_of_mem_drop (ih _ c hc)
      · exact List.mem_of_mem_drop (ih _ c hc)
      · exact List.mem_of_mem_drop (ih _ c hc)
      · exact List.mem_of_mem_drop (ih _ c hc)
      · rcases List.mem_cons.mp hc with h | h
        · rw [h]; exact List.mem_cons_self _ _
        · exact List.mem_cons_of_mem _ (ih r c h)

/-- Helper: `replAll` only ever deletes characters. -/
theorem replAll_subset (s : List Char) : ∀ c ∈ replAll s, c ∈ s :=
  replAF_subset (s.length + 1) s

/-- Helper: a bare fence cannot start inside a segment that ends in a closing
brace and contains no fence. -/
theorem fence_not_prefix_mid (j q : List Char) (hlast : j.getLast? = some '}')
    (hinf : ¬ patFence <:+: j) : ¬ patFence <+: (j ++ q) := by
  intro hpre
  obtain ⟨t, ht⟩ := hpre
  cases j with
  | nil => simp at hlast
  | cons a j1 =>
    cases j1 with
    | nil =>
      have ha : a = '}' := by simpa using hlast
      subst ha
      have ht2 : ('`' : Char) :: '`' :: '`' :: t = '}' :: q := ht
      injection ht2 with h1 _
      exact absurd h1 (by decide)
    | cons b j2 =>
      cases j2 with
      | nil =>
        have hb : b = '}' := by simpa using hlast
        subst hb
        have ht2 : ('`' : Char) :: '`' :: '`' :: t = a :: '}' :: q := ht
        injection ht2 with _ hr1
        injection hr1 with h2 _
        exact absurd h2 (by decide)
      | cons c j3 =>
        have ht2 : ('`' : Char) :: '`' :: '`' :: t = a :: b :: c :: (j3 ++ q) := ht
        injection ht2 with h1 hr1
        injection hr1 with h2 hr2
        injection hr2 with h3 _
        subst h1
        subst h2
        subst h3
        exact hinf ⟨[], j3, rfl⟩

/-- Helper: a newline-led fence cannot start inside a segment that ends in a
closing brace and contains no fence. -/
theorem nlfence_not_prefix_mid (j q : List Char) (hlast : j.getLast? = some '}')
    (hinf : ¬ patFence <:+: j) : ¬ patNlFence <+: (j ++ q) := by
  intro hpre
  obtain ⟨t, ht⟩ := hpre
  cases j with
  | nil => simp at hlast
  | cons a j1 =>
    cases j1 with
    | nil =>
      have ha : a = '}' := by simpa using hlast
      subst ha
      have ht2 : ('\n' : Char) :: '`' :: '`' :: '`' :: t = '}' :: q := ht
      injection ht2 with h1 _
      exact absurd h1 (by decide)
    | cons b j2 =>
      cases j2 with
      | nil =>
        have hb : b = '}' := by simpa using hlast
        subst hb
        have ht2 : ('\n' : Char) :: '`' :: '`' :: '`' :: t = a :: '}' :: q := ht
        injection ht2 with _ hr1
        injection hr1 with h2 _
        exact absurd h2 (by decide)
      | cons c j3 =>
        cases j3 with
        | nil =>
          have hc : c = '}' := by simpa using hlast
          subst hc
          have ht2 : ('\n' : Char) :: '`' :: '`' :: '`' :: t = a :: b :: '}' :: q := ht
          injection ht2 with _ hr1
          injection hr1 with _ hr2
          injection hr2 with h3 _
          exact absurd h3 (by decide)
        | cons d j4 =>
          have ht2 : ('\n' : Char) :: '`' :: '`' :: '`' :: t
              = a :: b :: c :: d :: (j4 ++ q) := ht
          injection ht2 with _ hr1
          injection hr1 with h2 hr2
          injection hr2 with h3 hr3
          injection hr3 with h4 _
          subst h2
          subst h3
          subst h4
          exact hinf ⟨[a], j4, rfl⟩

/-- Helper: the scan keeps a character at which neither a bare fence nor a
newline-led fence starts (the other alternatives begin with a bare fence). -/
theorem replAll_cons_safe (a : Char) (rest : List Char)
    (hF : ¬ patFence <+: (a :: rest)) (hNL : ¬ patNlFence <+: (a :: rest)) :
    replAll (a :: rest) = a :: replAll rest := by
  apply replAll_cons_nomatch
  · intro h
    exact hF (List.IsPrefix.trans ⟨['j', 's', 'o', 'n', '\n'], rfl⟩
      (List.isPrefixOf_iff_prefix.mp h))
  · intro h
    exact hF (List.IsPrefix.trans ⟨['j', 's', 'o', 'n'], rfl⟩
      (List.isPrefixOf_iff_prefix.mp h))
  · intro h
    exact hNL (List.isPrefixOf_iff_prefix.mp h)
  · intro h
    exact hF (List.isPrefixOf_iff_prefix.mp h)

/-- Helper: the scan passes over a fence-free segment that ends in a closing
brace without touching it. -/
theorem replAll_append_mid : ∀ (j q : List Char), j.getLast? = some '}' →
    ¬ patFence <:+: j → replAll (j ++ q) = j ++ replAll q := by
  intro j
  induction j with
  | nil =>
    intro q hlast _
    simp at hlast
  | cons a j1 ih =>
    intro q hlast hinf
    have hF : ¬ patFence <+: (a :: (j1 ++ q)) := fence_not_prefix_mid (a :: j1) q hlast hinf
    have hNL : ¬ patNlFence <+: (a :: (j1 ++ q)) :=
      nlfence_not_prefix_mid (a :: j1) q hlast hinf
    show replAll (a :: (j1 ++ q)) = (a :: j1) ++ replAll q
    rw [replAll_cons_safe a (j1 ++ q) hF hNL]
    cases j1 with
    | nil => rfl
    | cons b j2 =>
      have hlast2 : (b :: j2).getLast? = some '}' := by
        rw [← List.getLast?_cons_cons]
        exact hlast
      have hinf2 : ¬ patFence <:+: (b :: j2) := by
        intro hi
        obtain ⟨u, w, huw⟩ := hi
        exact hinf ⟨a :: u, w, by rw [← huw]; rfl⟩
      rw [ih q hlast2 hinf2]
      rfl

/-- Helper: a pattern that avoids the character right after `p` fits inside
`p` whenever it matches at the start of `p ++ hd :: m`. -/
theorem pat_prefix_le (pat p : List Char) (hd : Char) (m : List Char)
    (hpre : pat <+: (p ++ hd :: m)) (hnb : hd ∉ pat) : pat.length ≤ p.length := by
  by_contra hlt
  push_neg at hlt
  have hp : p <+: (p ++ hd :: m) := List.prefix_append p (hd :: m)
  have hpp : p <+: pat := List.prefix_of_prefix_length_le hp hpre (Nat.le_of_lt hlt)
  obtain ⟨u, hu⟩ := hpp
  obtain ⟨t, ht⟩ := hpre
  rw [← hu, List.append_assoc] at ht
  have hut : u ++ t = hd :: m := List.append_cancel_left ht
  cases u with
  | nil =>
    rw [← hu] at hlt
    simp at hlt
  | cons x u1 =>
    have hx : x = hd := by
      have h2 := congrArg (fun l => l.head?) hut
      simpa using h2
    apply hnb
    rw [← hu, hx]
    exact List.mem_append_right p (List.mem_cons_self hd u1)

/-- Helper: the scan confines every deletion in the region before a
brace-delimited, fence-free segment to that region, and leaves the segment
and the scan of the region after it intact. -/
theorem replAll_append_left : ∀ (n : Nat) (p j q : List Char),
    p.length ≤ n → j.head? = some '{' → j.getLast? = some '}' → ¬ patFence <:+: j →
    ∃ p2, replAll (p ++ (j ++ q)) = p2 ++ (j ++ replAll q) ∧ ∀ c ∈ p2, c ∈ p := by
  intro n
  induction n with
  | zero =>
    intro p j q hlen hh hl hinf
    have hp : p = [] := List.eq_nil_of_length_eq_zero (Nat.le_zero.mp hlen)
    subst hp
    exact ⟨[], by simpa using replAll_append_mid j q hl hinf, by intro c hc; cases hc⟩
  | succ n ih =>
    intro p j q hlen hh hl hinf
    cases p with
    | nil => exact ⟨[], by simpa using replAll_append_mid j q hl hinf, by intro c hc; cases hc⟩
    | cons a p1 =>
      cases j with
      | nil => simp at hh
      | cons jh jt =>
        have hjh : jh = '{' := by simpa using hh
        subst hjh
        simp only [List.length_cons] at hlen
        by_cases hA : patFenceJsonNl.isPrefixOf ((a :: p1) ++ (('{' :: jt) ++ q)) = true
        · have hle : patFenceJsonNl.length ≤ (a :: p1).length :=
            pat_prefix_le patFenceJsonNl (a :: p1) '{' (jt ++ q)
              (List.isPrefixOf_iff_prefix.mp hA) (by decide)
          have hle8 : (8 : Nat) ≤ p1.length + 1 := by
            simpa [patFenceJsonNl] using hle
          rw [replAll_skipA _ hA]
          have hdrop : ((a :: p1) ++ (('{' :: jt) ++ q)).drop 8
              = ((a :: p1).drop 8) ++ (('{' :: jt) ++ q) := by
            rw [List.drop_append_eq_append_drop]
            have h0 : 8 - (a :: p1).length = 0 := by
              simp only [List.length_cons]
              omega
            rw [h0, List.drop_zero]
          rw [hdrop]
          obtain ⟨p2, heq, hsub⟩ := ih ((a :: p1).drop 8) ('{' :: jt) q
            (by rw [List.length_drop]; simp only [List.length_cons]; omega) rfl hl hinf
          exact ⟨p2, heq, fun c hc => List.mem_of_mem_drop (hsub c hc)⟩
        · by_cases hB : patFenceJson.isPrefixOf ((a :: p1) ++ (('{' :: jt) ++ q)) = true
          · have hle : patFenceJson.length ≤ (a :: p1).length :=
              pat_prefix_le patFenceJson (a :: p1) '{' (jt ++ q)
                (List.isPrefixOf_iff_prefix.mp hB) (by decide)
            have hle7 : (7 : Nat) ≤ p1.length + 1 := by
              simpa [patFenceJson] using hle
            rw [replAll_skipB _ hA hB]
            have hdrop : ((a :: p1) ++ (('{' :: jt) ++ q)).drop 7
                = ((a :: p1).drop 7) ++ (('{' :: jt) ++ q) := by
              rw [List.drop_append_eq_append_drop]
              have h0 : 7 - (a :: p1).length = 0 := by
                simp only [List.length_cons]
                omega
              rw [h0, List.drop_zero]
            rw [hdrop]
            obtain ⟨p2, heq, hsub⟩ := ih ((a :: p1).drop 7) ('{' :: jt) q
              (by rw [List.length_drop]; simp only [List.length_cons]; omega) rfl hl hinf
            exact ⟨p2, heq, fun c hc => List.mem_of_mem_drop (hsub c hc)⟩
          · by_cases hC : patNlFence.isPrefixOf ((a :: p1) ++ (('{' :: jt) ++ q)) = true
            · have hle : patNlFence.length ≤ (a :: p1).length :=
                pat_prefix_le patNlFence (a :: p1) '{' (jt ++ q)
                  (List.isPrefixOf_iff_prefix.mp hC) (by decide)
              have hle4 : (4 : Nat) ≤ p1.length + 1 := by
                simpa [patNlFence] using hle
              rw [replAll_skipC _ hA hB hC]
              have hdrop : ((a :: p1) ++ (('{' :: jt) ++ q)).drop 4
                  = ((a :: p1).drop 4) ++ (('{' :: jt) ++ q) := by
                rw [List.drop_append_eq_append_drop]
                have h0 : 4 - (a :: p1).length = 0 := by
                  simp only [List.length_cons]
                  omega
                rw [h0, List.drop_zero]
              rw [hdrop]
              obtain ⟨p2, heq, hsub⟩ := ih ((a :: p1).drop 4) ('{' :: jt) q
                (by rw [List.length_drop]; simp only [List.length_cons]; omega) rfl hl hinf
              exact ⟨p2, heq, fun c hc => List.mem_of_mem_drop (hsub c hc)⟩
            · by_cases hD : patFence.isPrefixOf ((a :: p1) ++ (('{' :: jt) ++ q)) = true
              · have hle : patFence.length ≤ (a :: p1).length :=
                  pat_prefix_le patFence (a :: p1) '{' (jt ++ q)
                    (List.isPrefixOf_iff_prefix.mp hD) (by decide)
                have hle3 : (3 : Nat) ≤ p1.length + 1 := by
                  simpa [patFence] using hle
                rw [replAll_skipD _ hA hB hC hD]
                have hdrop : ((a :: p1) ++ (('{' :: jt) ++ q)).drop 3
                    = ((a :: p1).drop 3) ++ (('{' :: jt) ++ q) := by
                  rw [List.drop_append_eq_append_drop]
                  have h0 : 3 - (a :: p1).length = 0 := by
                    simp only [List.length_cons]
                    omega
                  rw [h0, List.drop_zero]
                rw [hdrop]
                obtain ⟨p2, heq, hsub⟩ := ih ((a :: p1).drop 3) ('{' :: jt) q
                  (by rw [List.length_drop]; simp only [List.length_cons]; omega) rfl hl hinf
                exact ⟨p2, heq, fun c hc => List.mem_of_mem_drop (hsub c hc)⟩
              · have hstep : replAll ((a :: p1) ++ (('{' :: jt) ++ q))
                    = a :: replAll (p1 ++ (('{' :: jt) ++ q)) :=
                  replAll_cons_nomatch a (p1 ++ (('{' :: jt) ++ q)) hA hB hC hD
                rw [hstep]
                obtain ⟨p2, heq, hsub⟩ := ih p1 ('{' :: jt) q (by omega) rfl hl hinf
                refine ⟨a :: p2, ?_, ?_⟩
                · rw [heq]
                  rfl
                · intro c hc
                  rcases List.mem_cons.mp hc with h | h
                  · rw [h]
                    exact List.mem_cons_self _ _
                  · exact List.mem_cons_of_mem _ (hsub c h)

/-- Helper: dropping leading matches stops at a non-matching head of the
second segment. -/
theorem dropWhile_append_head_false (p : Char → Bool) (a : List Char) (hd : Char)
    (m : List Char) (hph : p hd = false) :
    (a ++ (hd :: m)).dropWhile p = a.dropWhile p ++ (hd :: m) := by
  rw [List.dropWhile_append]
  by_cases he : (a.dropWhile p).isEmpty = true
  · rw [if_pos he]
    have ha : a.dropWhile p = [] := List.isEmpty_iff.mp he
    rw [ha, List.nil_append, List.dropWhile_cons, hph]
    simp
  · rw [if_neg he]

/-- Helper: the right trim passes over a suffix whose preceding segment ends
in a non-whitespace character. -/
theorem rtrim_append (X Q : List Char) (hd : Char) (hlast : X.getLast? = some hd)
    (hph : isJsWs hd = false) :
    ((X ++ Q).reverse.dropWhile isJsWs).reverse
      = X ++ (Q.reverse.dropWhile isJsWs).reverse := by
  obtain ⟨w, hw⟩ : ∃ w, X.reverse = hd :: w := by
    cases hx : X.reverse with
    | nil =>
      have hX : X = [] := by
        have := congrArg List.reverse hx
        simpa using this
      rw [hX] at hlast
      simp at hlast
    | cons y ys =>
      have hy : y = hd := by
        have h2 : X.reverse.head? = some y := by rw [hx]; rfl
        rw [List.head?_reverse, hlast] at h2
        exact (Option.some.inj h2).symm
      subst hy
      exact ⟨ys, rfl⟩
  rw [List.reverse_append, hw,
    dropWhile_append_head_false isJsWs Q.reverse hd w hph,
    List.reverse_append,
    show (hd :: w).reverse = X from by rw [← hw, List.reverse_reverse]]

/-- Helper: `trim` removes only surrounding whitespace, never characters of a
brace-delimited segment. -/
theorem trimJs_mid (P J Q : List Char) (hh : J.head? = some '{')
    (hl : J.getLast? = some '}') :
    ∃ P1 Q1, trimJs (P ++ (J ++ Q)) = P1 ++ (J ++ Q1)
      ∧ (∀ c ∈ P1, c ∈ P) ∧ (∀ c ∈ Q1, c ∈ Q) := by
  cases J with
  | nil => simp at hh
  | cons jh jt =>
    have hjh : jh = '{' := by simpa using hh
    subst hjh
    refine ⟨P.dropWhile isJsWs, (Q.reverse.dropWhile isJsWs).reverse, ?_, ?_, ?_⟩
    · unfold trimJs
      rw [show P ++ (('{' :: jt) ++ Q) = P ++ ('{' :: (jt ++ Q)) from rfl,
        dropWhile_append_head_false isJsWs P '{' (jt ++ Q) (by decide),
        show P.dropWhile isJsWs ++ ('{' :: (jt ++ Q))
          = (P.dropWhile isJsWs ++ ('{' :: jt)) ++ Q from by
            rw [List.append_assoc]
            rfl]
      rw [rtrim_append (P.dropWhile isJsWs ++ ('{' :: jt)) Q '}'
        (by rw [List.getLast?_append, hl]; rfl) (by decide)]
      rw [List.append_assoc]
    · exact fun c hc => (List.dropWhile_sublist isJsWs).subset hc
    · intro c hc
      have h2 := (List.dropWhile_sublist isJsWs).subset (List.mem_reverse.mp hc)
      exact List.mem_reverse.mp h2

/-- Helper: `stripLead` removes characters only before a segment whose head
appears in neither anchored alternative. -/
theorem stripLead_append (p : List Char) (hd : Char) (m : List Char)
    (hnb1 : hd ∉ patFenceNl) (hnb2 : hd ∉ patFence) :
    ∃ p2, stripLead (p ++ (hd :: m)) = p2 ++ (hd :: m) ∧ ∀ c ∈ p2, c ∈ p := by
  unfold stripLead
  by_cases hA : patFenceNl.isPrefixOf (p ++ (hd :: m)) = true
  · rw [if_pos hA]
    have hle : patFenceNl.length ≤ p.length :=
      pat_prefix_le patFenceNl p hd m (List.isPrefixOf_iff_prefix.mp hA) hnb1
    have hle4 : (4 : Nat) ≤ p.length := hle
    refine ⟨p.drop 4, ?_, fun c hc => List.mem_of_mem_drop hc⟩
    rw [List.drop_append_eq_append_drop,
      show 4 - p.length = 0 from by omega, List.drop_zero]
  · rw [if_neg hA]
    by_cases hB : patFence.isPrefixOf (p ++ (hd :: m)) = true
    · rw [if_pos hB]
      have hle : patFence.length ≤ p.length :=
        pat_prefix_le patFence p hd m (List.isPrefixOf_iff_prefix.mp hB) hnb2
      have hle3 : (3 : Nat) ≤ p.length := hle
      refine ⟨p.drop 3, ?_, fun c hc => List.mem_of_mem_drop hc⟩
      rw [List.drop_append_eq_append_drop,
        show 3 - p.length = 0 from by omega, List.drop_zero]
    · rw [if_neg hB]
      exact ⟨p, rfl, fun c hc => hc⟩

/-- Helper: the anchored fence replacement removes characters only outside a
brace-delimited segment. -/
theorem replEnds_mid (P J Q : List Char) (hh : J.head? = some '{')
    (hl : J.getLast? = some '}') :
    ∃ P2 Q2, replEnds (P ++ (J ++ Q)) = P2 ++ (J ++ Q2)
      ∧ (∀ c ∈ P2, c ∈ P) ∧ (∀ c ∈ Q2, c ∈ Q) := by
  cases J with
  | nil => simp at hh
  | cons jh jt =>
    have hjh : jh = '{' := by simpa using hh
    subst hjh
    obtain ⟨P2, hP2, hP2sub⟩ := stripLead_append P '{' (jt ++ Q)
      (by decide) (by decide)
    obtain ⟨w, hw⟩ : ∃ w, ('{' :: jt).reverse = '}' :: w := by
      cases hx : ('{' :: jt).reverse with
      | nil =>
        have := congrArg List.length hx
        simp at this
      | cons y ys =>
        have hy : y = '}' := by
          have h2 : ('{' :: jt).reverse.head? = some y := by rw [hx]; rfl
          rw [List.head?_reverse, hl] at h2
          exact (Option.some.inj h2).symm
        subst hy
        exact ⟨ys, rfl⟩
    have hJ : w.reverse ++ ['}'] = '{' :: jt := by
      rw [← List.reverse_cons, ← hw, List.reverse_reverse]
    obtain ⟨Q2r, hQ2, hQ2sub⟩ := stripLead_append Q.reverse '}' (w ++ P2.reverse)
      (by decide) (by decide)
    refine ⟨P2, Q2r.reverse, ?_, hP2sub, ?_⟩
    · unfold replEnds
      rw [show P ++ (('{' :: jt) ++ Q) = P ++ ('{' :: (jt ++ Q)) from rfl, hP2,
        show P2 ++ ('{' :: (jt ++ Q)) = (P2 ++ ('{' :: jt)) ++ Q from by
          rw [List.append_assoc]
          rfl,
        List.reverse_append,
        show (P2 ++ ('{' :: jt)).reverse = '}' :: (w ++ P2.reverse) from by
          rw [List.reverse_append, hw]
          rfl,
        hQ2,
        List.reverse_append,
        show (('}' : Char) :: (w ++ P2.reverse)).reverse = P2 ++ ('{' :: jt) from by
          rw [List.reverse_cons, List.reverse_append, List.reverse_reverse,
            List.append_assoc, hJ],
        List.append_assoc]
    · intro c hc
      exact hQ2sub c (List.mem_reverse.mp hc) |> List.mem_reverse.mp

/-- Helper: the language-tag replacement removes characters only before a
brace-delimited segment. -/
theorem replJsonTag_mid (P J Q : List Char) (hh : J.head? = some '{') :
    ∃ P2, replJsonTag (P ++ (J ++ Q)) = P2 ++ (J ++ Q) ∧ ∀ c ∈ P2, c ∈ P := by
  cases J with
  | nil => simp at hh
  | cons jh jt =>
    have hjh : jh = '{' := by simpa using hh
    subst hjh
    unfold replJsonTag
    by_cases h : (['j', 's', 'o', 'n'] : List Char).isPrefixOf (P ++ (('{' :: jt) ++ Q)) = true
    · rw [if_pos h]
      have hle : (['j', 's', 'o', 'n'] : List Char).length ≤ P.length :=
        pat_prefix_le _ P '{' (jt ++ Q)
          (List.isPrefixOf_iff_prefix.mp h) (by decide)
      have hle4 : (4 : Nat) ≤ P.length := hle
      refine ⟨(P.drop 4).dropWhile isJsWs, ?_, ?_⟩
      · rw [show P ++ (('{' :: jt) ++ Q) = P ++ ('{' :: (jt ++ Q)) from rfl,
          List.drop_append_eq_append_drop,
          show 4 - P.length = 0 from by omega, List.drop_zero,
          dropWhile_append_head_false isJsWs (P.drop 4) '{' (jt ++ Q) (by decide)]
        rfl
      · intro c hc
        exact List.mem_of_mem_drop ((List.dropWhile_sublist isJsWs).subset hc)
    · rw [if_neg h]
      exact ⟨P, rfl, fun c hc => hc⟩

/-- Helper: the greedy outer-brace match recovers exactly the
brace-delimited segment when the surroundings are brace-free. -/
theorem braceMatch_mid (P J Q : List Char)
    (hp : ∀ c ∈ P, c ≠ '{' ∧ c ≠ '}') (hq : ∀ c ∈ Q, c ≠ '{' ∧ c ≠ '}')
    (hh : J.head? = some '{') (hl : J.getLast? = some '}') :
    braceMatch (P ++ (J ++ Q)) = some J := by
  cases J with
  | nil => simp at hh
  | cons jh jt =>
    have hjh : jh = '{' := by simpa using hh
    subst hjh
    obtain ⟨w, hw⟩ : ∃ w, ('{' :: jt).reverse = '}' :: w := by
      cases hx : ('{' :: jt).reverse with
      | nil =>
        have := congrArg List.length hx
        simp at this
      | cons y ys =>
        have hy : y = '}' := by
          have h2 : ('{' :: jt).reverse.head? = some y := by rw [hx]; rfl
          rw [List.head?_reverse, hl] at h2
          exact (Option.some.inj h2).symm
        subst hy
        exact ⟨ys, rfl⟩
    have hjt : jt ≠ [] := by
      intro h
      rw [h] at hw
      have h2 : (['{'] : List Char) = '}' :: w := by simp at hw
      injection h2 with h1 _
      exact absurd h1 (by decide)
    simp only [braceMatch]
    have e1 : (P ++ (('{' :: jt) ++ Q)).dropWhile (fun c => decide (c ≠ '{'))
        = ('{' :: jt) ++ Q := by
      rw [List.dropWhile_append_of_pos (by
        intro c hc
        exact decide_eq_true (hp c hc).1)]
      rw [show ('{' :: jt) ++ Q = '{' :: (jt ++ Q) from rfl, List.dropWhile_cons]
      simp
    rw [e1]
    have e2 : ((('{' :: jt) ++ Q).reverse.dropWhile (fun c => decide (c ≠ '}'))).reverse
        = '{' :: jt := by
      rw [List.reverse_append, hw]
      rw [List.dropWhile_append_of_pos (by
        intro c hc
        exact decide_eq_true (hq c (List.mem_reverse.mp hc)).2)]
      rw [List.dropWhile_cons]
      rw [if_neg (by simp)]
      rw [← hw, List.reverse_reverse]
    rw [e2]
    rw [if_pos (by
      simp only [List.length_cons]
      have h2 : 0 < jt.length := List.length_pos.mpr hjt
      omega)]

/-- Helper: the whole normalisation pipeline recovers exactly the embedded
JSON segment when the surroundings are brace-free and the segment is
fence-free. -/
theorem candidateText_mid (P J Q : List Char)
    (hp : ∀ c ∈ P, c ≠ '{' ∧ c ≠ '}') (hq : ∀ c ∈ Q, c ≠ '{' ∧ c ≠ '}')
    (hh : J.head? = some '{') (hl : J.getLast? = some '}')
    (hinf : ¬ patFence <:+: J) :
    candidateText (P ++ (J ++ Q)) = J := by
  obtain ⟨P1, Q1, h1, hP1, hQ1⟩ := trimJs_mid P J Q hh hl
  obtain ⟨P2, h2, hP2⟩ := replAll_append_left P1.length P1 J Q1 (Nat.le_refl _) hh hl hinf
  obtain ⟨P3, Q3, h3, hP3, hQ3⟩ := replEnds_mid P2 J (replAll Q1) hh hl
  obtain ⟨P4, h4, hP4⟩ := replJsonTag_mid P3 J Q3 hh
  have hp4 : ∀ c ∈ P4, c ≠ '{' ∧ c ≠ '}' := fun c hc =>
    hp c (hP1 c (hP2 c (hP3 c (hP4 c hc))))
  have hq3 : ∀ c ∈ Q3, c ≠ '{' ∧ c ≠ '}' := fun c hc =>
    hq c (hQ1 c (replAll_subset Q1 c (hQ3 c hc)))
  have h5 : braceMatch (P4 ++ (J ++ Q3)) = some J := braceMatch_mid P4 J Q3 hp4 hq3 hh hl
  simp only [candidateText]
  rw [h1, h2, h3, h4, h5]

/-- The bare RepAnalysis-shaped JSON text of the C1 counterexample. -/
def cexBareJson : String := "\x7b\"summary\":1,\"timeline\":1,\"insights\":1\x7d"

/-- The decoded tree of `cexBareJson`. -/
def cexBareTree : JsonVal :=
  .jobj [(keySummary, .jnum 1 0), (keyTimeline, .jnum 1 0), (keyInsights, .jnum 1 0)]

/-- A valid RepAnalysis-shaped JSON text whose `summary` string value
contains a triple-backtick run. -/
def cexTickJson : String := "\x7b\"summary\":\"``` ok\",\"timeline\":1,\"insights\":1\x7d"

/-- The decoded tree of `cexTickJson`. -/
def cexTickTree : JsonVal :=
  .jobj [(keySummary, .jstr (strUnits "``` ok")), (keyTimeline, .jnum 1 0),
         (keyInsights, .jnum 1 0)]

/-- C1 counterexample.  First: the bare JSON `cexBareJson` parses to a
truthy-keyed tree, yet decorating it with the prose prefix consisting of one
opening brace makes `parseAnalysisResult` return the absent value instead of
that tree — the greedy outer-brace scan includes the decoration, so recovery
fails for arbitrary surrounding prose.  Second: for a valid JSON whose string
content holds a triple backtick, even the EMPTY decoration fails — the global
fence replacement deletes the backticks inside the string value, so the
recovered record's `summary` differs from the bare JSON's. -/
theorem parse_embedded_prose_brace_cex :
    (jparse cexBareJson.data = some cexBareTree ∧
      truthyKeys cexBareTree = true ∧
      parseAnalysisResult ("\x7b" ++ cexBareJson) = none) ∧
    (jparse cexTickJson.data = some cexTickTree ∧
      truthyKeys cexTickTree = true ∧
      getField cexTickTree keySummary = some (.jstr (strUnits "``` ok")) ∧
      (parseAnalysisResult cexTickJson).map (fun v => getField v keySummary)
        = some (some (.jstr (strUnits " ok"))) ∧
      strUnits " ok" ≠ strUnits "``` ok") :=
  ⟨⟨rfl, rfl, rfl⟩, ⟨rfl, rfl, rfl, rfl, by decide⟩⟩

/-- C1 (amended): `parseAnalysisResult` recovers the decoded tree of a
RepAnalysis-shaped JSON object (truthy `summary`, `timeline`, `insights`)
embedded in arbitrary surrounding prose or code fences, provided the
surrounding decoration contains no brace characters and the JSON text
contains no triple-backtick run (and, as a JSON object text, starts with its
opening brace and ends with its closing brace). -/
theorem parse_recovers_embedded_json :
    ∀ (pre j post : String) (v : JsonVal),
      (∀ c ∈ pre.data, c ≠ '{' ∧ c ≠ '}') →
      (∀ c ∈ post.data, c ≠ '{' ∧ c ≠ '}') →
      j.data.head? = some '{' →
      j.data.getLast? = some '}' →
      ¬ patFence <:+: j.data →
      jparse j.data = some v →
      truthyKeys v = true →
      parseAnalysisResult (pre ++ j ++ post) = some v := by
  intro pre j post v hp hq hh hl hinf hjp htr
  unfold parseAnalysisResult parseAnalysisCore
  have hdata : (pre ++ j ++ post).data = pre.data ++ (j.data ++ post.data) := by
    rw [String.data_append, String.data_append, List.append_assoc]
  rw [hdata, candidateText_mid pre.data j.data post.data hp hq hh hl hinf, hjp]
  show (if truthyKeys v = true then some v else none) = some v
  rw [if_pos htr]

/-- Witness for C1: a fenced, prose-surrounded model response is recovered
to the same tree as the bare JSON. -/
theorem parse_recovers_embedded_json_witness :
    parseAnalysisResult
        ("Here is the analysis you asked for:\n```json\n" ++ cexBareJson ++ "\n```\nGood luck!")
      = some cexBareTree :=
  parse_recovers_embedded_json "Here is the analysis you asked for:\n```json\n"
    cexBareJson "\n```\nGood luck!" cexBareTree (by decide) (by decide) (by decide)
    (by decide) (by decide) rfl rfl

end WebCameraKit
